import Mathlib

/-!
# Verification of the streaming connected-components engine (`graph.cpp`)

This file gives a shallow embedding of the connectivity engine of the
HyperGraphStreamingCC repository (`src/graph.cpp`) and proves properties of
its specification against that embedding.

The engine keeps one linear-sketch "supernode" per vertex, buffers stream
updates, and answers connectivity queries by a Borůvka-style driver that
repeatedly samples one edge per representative and merges components in a
union-find structure (`parent`/`size` arrays with path compression in
`Graph::get_parent` and union-by-size in `Graph::supernodes_to_merge`).

The `Supernode` class and the sketch / gutter collaborators are external to
`src/`; they are modelled from the specification (see the doc comments of
the corresponding definitions).  Everything rooted in `graph.cpp` is a
direct translation of the C++ source: mutable arrays become explicitly
threaded functions `Nat → _`, and the unbounded recursion of
`Graph::get_parent` receives an explicit fuel argument (the C++ recursion
terminates because the parent forest is acyclic; with fuel `n` the Lean
function computes exactly the same result on acyclic states, which is
proved below).
-/

namespace StreamingCC

/-- Return codes of `Supernode::sample()` / `Sketch::query()` (upstream enum
`SampleSketchRet`): `GOOD` carries a sampled edge, `ZERO` means the sketch
vector is provably zero, `FAIL` means the sketch was inconclusive. -/
inductive SampleSketchRet where
  | GOOD : SampleSketchRet
  | ZERO : SampleSketchRet
  | FAIL : SampleSketchRet
deriving DecidableEq, Repr

/-- `Edge` = `std::pair<node_id_t, node_id_t>`. -/
abbrev Edge := Nat × Nat

/-- The per-representative query result `std::pair<Edge, SampleSketchRet>`. -/
abbrev QueryRes := Edge × SampleSketchRet

/-- Exceptions a sketch query may raise (§7 of the spec): `NoGoodBucket` is a
sketch-level failure, `OutOfQueries` signals an exhausted sketch bank. -/
inductive GraphError where
  | NoGoodBucketErr : GraphError
  | OutOfQueriesErr : GraphError
deriving DecidableEq, Repr

/-- Pointwise update of a function modelling a mutable array cell write
`f[i] = v`. -/
def upd {α : Type} (f : Nat → α) (i : Nat) (v : α) : Nat → α :=
  fun j => if j = i then v else f j

/-- Modelled from the spec: `Supernode` (the class lives outside `src/`; only
`graph.cpp` and its test are in the repository).  Per §3 a supernode is a bank
of `K` independent sketches plus a monotonically advancing cursor `idx`
("level") identifying the next sketch to query.  The abstract `bank` maps a
level to the outcome of querying that level's sketch in its current state —
either a query result or a raised sketch exception. -/
structure Supernode where
  idx : Nat
  numSketches : Nat
  bank : Nat → Except GraphError QueryRes

/-- Modelled from the spec: `Supernode::sample()`.  Each call advances the
cursor by one level (§4.3 step 1); per the §3 invariant, a supernode whose
cursor has passed the last level (`level = K`) is exhausted and the sample
returns `FAIL`. -/
def Supernode.sample (s : Supernode) : Except GraphError QueryRes × Supernode :=
  (if s.numSketches ≤ s.idx then .ok ((0, 0), .FAIL) else s.bank s.idx,
   { s with idx := s.idx + 1 })

/-- Modelled from the spec: `Supernode::reset_query_state()` rewinds the
cursor to 0 without disturbing sketch contents (§3, Lifecycle). -/
def Supernode.reset_query_state (s : Supernode) : Supernode :=
  { s with idx := 0 }

/-- Modelled from the spec: the serialized supernode record (§6): the
concatenation of the `K` sketch records, written and read by the sketch
primitive itself.  The cursor is not part of the record. -/
structure SupernodeRecord where
  numSketches : Nat
  bank : Nat → Except GraphError QueryRes

/-- Modelled from the spec: `Supernode::write_binary` — emit the sketch
records of a supernode. -/
def Supernode.write_binary (s : Supernode) : SupernodeRecord :=
  ⟨s.numSketches, s.bank⟩

/-- Modelled from the spec: `Supernode::makeSupernode(num_nodes, seed, in)` —
rebuild a supernode from its serialized sketch records; the cursor of a
freshly built supernode is 0. -/
def Supernode.makeSupernode (r : SupernodeRecord) : Supernode :=
  ⟨0, r.numSketches, r.bank⟩

/-- `x` is a root of the parent map `p` (a fixpoint, `parent[x] == x`). -/
def isRoot (p : Nat → Nat) (x : Nat) : Prop := p x = x

instance (p : Nat → Nat) (x : Nat) : Decidable (isRoot p x) := by
  unfold isRoot; infer_instance

/-- `Graph::get_parent` (graph.cpp:368-371): union-find `find` with full path
compression.  The C++ recursion
```
node_id_t Graph::get_parent(node_id_t node) {
  if (parent[node] == node) return node;
  return parent[node] = get_parent(parent[node]);
}
```
is unbounded; the embedding threads the mutated `parent` array explicitly
and takes a fuel argument.  On states whose parent forest is acyclic, fuel
`n` (the number of vertices) is enough to reach the root, and the function
then computes exactly the C++ result (proved below). -/
def get_parent (fuel : Nat) (p : Nat → Nat) (node : Nat) : Nat × (Nat → Nat) :=
  match fuel with
  | 0 => (node, p)
  | fuel + 1 =>
    if p node = node then (node, p)
    else
      let res := get_parent fuel p (p node)
      (res.1, upd res.2 node res.1)

/-- Fuel-bounded pure root computation (no compression); reference function
for reasoning about `get_parent`. -/
def rootF (fuel : Nat) (p : Nat → Nat) (x : Nat) : Nat :=
  match fuel with
  | 0 => x
  | fuel + 1 => if p x = x then x else rootF fuel p (p x)

/-- `RootOf p x r`: following parent pointers from `x` reaches the fixpoint
`r`.  This is the relational specification of `find`. -/
def RootOf (p : Nat → Nat) (x r : Nat) : Prop :=
  ∃ k, p^[k] x = r ∧ p r = r

/-- The union-find validity invariant maintained by `graph.cpp` between
operations: parent pointers stay inside `[0, n)` and every chain reaches a
fixpoint (the forest is acyclic). -/
def DSUinv (n : Nat) (p : Nat → Nat) : Prop :=
  (∀ x, x < n → p x < n) ∧ (∀ x, x < n → ∃ r, RootOf p x r)

/-- State threaded through the single-threaded merge-planning pass of
`Graph::supernodes_to_merge` (graph.cpp:145-201): the DSU arrays, the
per-destination merge lists `to_merge`, the retry list `new_reps`, and the
`modified` member flag. -/
structure PlanState where
  parent : Nat → Nat
  size : Nat → Nat
  toMerge : Nat → List Nat
  newReps : List Nat
  modified : Bool

/-- One iteration of the planning loop of `Graph::supernodes_to_merge`
(graph.cpp:149-186) for representative `i`: `FAIL` queues `i` for retry and
sets `modified`; `ZERO` closes the component; otherwise the two endpoint
roots are found (with path compression), an equal pair is dropped, and a
distinct pair is united by size — on `size[a] < size[b]` the roles swap,
then `parent[b] = a`, `size[a] += size[b]`, `b` and the contents of
`to_merge[b]` are appended to `to_merge[a]`, `to_merge[b]` is cleared and
`modified` is set.  The fuel of `get_parent` is the vertex count `n`. -/
def planStep (n : Nat) (query : Nat → QueryRes) (st : PlanState) (i : Nat) : PlanState :=
  match (query i).2 with
  | .FAIL => { st with modified := true, newReps := st.newReps ++ [i] }
  | .ZERO => st
  | .GOOD =>
    let edge := (query i).1
    let ra := get_parent n st.parent edge.1
    let rb := get_parent n ra.2 edge.2
    let a0 := ra.1
    let b0 := rb.1
    let p2 := rb.2
    if a0 = b0 then { st with parent := p2 }
    else
      let a := if st.size a0 < st.size b0 then b0 else a0
      let b := if st.size a0 < st.size b0 then a0 else b0
      { parent := upd p2 b a
        size := upd st.size a (st.size a + st.size b)
        toMerge := fun x =>
          if x = a then st.toMerge a ++ b :: st.toMerge b
          else if x = b then [] else st.toMerge x
        newReps := st.newReps
        modified := true }

/-- `Graph::supernodes_to_merge` (graph.cpp:145-201): the planning fold over
`reps` followed by the retry filter (a queued retry `a` is kept only while
`to_merge[a]` is empty) and the appending of every `a < n` with a nonempty
`to_merge[a]`.  `to_merge` and `new_reps` start empty; the `modified` member
was cleared by the driver just before the call. -/
def supernodes_to_merge (n : Nat) (query : Nat → QueryRes) (reps : List Nat)
    (parent size : Nat → Nat) : PlanState :=
  let st := reps.foldl (planStep n query) ⟨parent, size, fun _ => [], [], false⟩
  let temp := st.newReps.filter (fun a => (st.toMerge a).isEmpty)
  { st with newReps := temp ++ (List.range n).filter (fun a => !(st.toMerge a).isEmpty) }

/-- One iteration of the sampling loop of `Graph::sample_supernodes`
(graph.cpp:130-140): sample representative `i` (advancing its cursor),
record the result in the `query` array on success, capture the exception
otherwise. -/
def sampleStep (acc : Option GraphError × (Nat → QueryRes) × (Nat → Supernode))
    (i : Nat) : Option GraphError × (Nat → QueryRes) × (Nat → Supernode) :=
  let res := (acc.2.2 i).sample
  let sns2 := upd acc.2.2 i res.2
  match res.1 with
  | .ok v => (acc.1, upd acc.2.1 i v, sns2)
  | .error e => (some e, acc.2.1, sns2)

/-- `Graph::sample_supernodes` (graph.cpp:126-143): sample every
representative (each sample advances that supernode's cursor), recording the
results in the `query` array; a raised sketch exception is captured and
reported after the loop (the remaining iterations still run).  The parallel
loop is sequentialized in `reps` order; the loop body writes `query[reps[i]]`
only when `sample()` did not throw. -/
def sample_supernodes (sns : Nat → Supernode) (reps : List Nat) :
    Option GraphError × (Nat → QueryRes) × (Nat → Supernode) :=
  reps.foldl sampleStep (none, fun _ => ((0, 0), SampleSketchRet.ZERO), sns)

/-- `Graph::merge_supernodes` (graph.cpp:203-229): for each destination `a`
in `new_reps`, first clone `supernodes[a]` when `make_copy` is set and the
snapshot backend is in-memory, then fold `supernodes[a]->merge(*supernodes[b])`
over `b ∈ to_merge[a]`.  The opaque sketch merge is the parameter `mergeFn`. -/
def mergeStep (mergeFn : Supernode → Supernode → Supernode)
    (copyInMem make_copy : Bool) (toMerge : Nat → List Nat)
    (acc : (Nat → Option Supernode) × (Nat → Supernode)) (a : Nat) :
    (Nat → Option Supernode) × (Nat → Supernode) :=
  let cs2 := if make_copy && copyInMem then upd acc.1 a (some (acc.2 a)) else acc.1
  let sa := (toMerge a).foldl (fun s b => mergeFn s (acc.2 b)) (acc.2 a)
  (cs2, upd acc.2 a sa)

def merge_supernodes (mergeFn : Supernode → Supernode → Supernode)
    (copyInMem : Bool) (copySns : Nat → Option Supernode) (sns : Nat → Supernode)
    (newReps : List Nat) (toMerge : Nat → List Nat) (make_copy : Bool) :
    (Nat → Option Supernode) × (Nat → Supernode) :=
  newReps.foldl (mergeStep mergeFn copyInMem make_copy toMerge) (copySns, sns)

/-- `Graph::backup_to_disk` (graph.cpp:303-314): serialize the supernodes of
`ids_to_backup`, in that order, to the backup file. -/
def backup_to_disk (sns : Nat → Supernode) (ids_to_backup : List Nat) :
    List SupernodeRecord :=
  ids_to_backup.map (fun idx => (sns idx).write_binary)

/-- `Graph::restore_from_disk` (graph.cpp:318-329): read the records of the
backup file back in sequence, rebuilding `supernodes[idx]` for each `idx` of
`ids_to_restore` in order (the id list must match the one used to back up). -/
def restore_from_disk (sns : Nat → Supernode) (file : List SupernodeRecord)
    (ids_to_restore : List Nat) : Nat → Supernode :=
  (ids_to_restore.zip file).foldl
    (fun s p => upd s p.1 (Supernode.makeSupernode p.2)) sns

/-- The `cleanup_copy` lambda of `Graph::boruvka_emulation`
(graph.cpp:251-264): when `make_copy` is set, restore the backed-up
supernodes — from the in-memory clones or from the backup file — over the
working array.  (The in-memory branch installs `copy_supernodes[i]`; clones
exist exactly for the backed-up ids, so the `Option.getD` default is never
used on the paths the driver takes.) -/
def cleanup_copy (make_copy copyInMem : Bool) (backedUp : List Nat)
    (copySns : Nat → Option Supernode) (file : List SupernodeRecord)
    (sns : Nat → Supernode) : Nat → Supernode :=
  if make_copy then
    if copyInMem then
      backedUp.foldl (fun s i => upd s i ((copySns i).getD (s i))) sns
    else restore_from_disk sns file backedUp
  else sns

/-- The loop state of the do-while in `Graph::boruvka_emulation`
(graph.cpp:266-283): working supernodes, in-memory clones, DSU arrays, the
current representative list, the ids snapshotted on the first round, the
backup file contents, the `modified` member and the `first_round` local. -/
structure BoruvkaState where
  sns : Nat → Supernode
  copySns : Nat → Option Supernode
  parent : Nat → Nat
  size : Nat → Nat
  reps : List Nat
  backedUp : List Nat
  backupFile : List SupernodeRecord
  modified : Bool
  firstRound : Bool

/-- One iteration of the do-while body of `Graph::boruvka_emulation`
(graph.cpp:267-283): clear `modified`, sample all representatives (a raised
sketch exception aborts the round and propagates), plan merges, on the first
round of a resumable query record `backed_up = reps` (and, with the on-disk
backend, write the backup file), then merge supernodes (cloning on the first
resumable round with the in-memory backend) and clear `first_round`. -/
def boruvkaRound (mergeFn : Supernode → Supernode → Supernode) (n : Nat)
    (make_copy copyInMem : Bool) (bs : BoruvkaState) :
    Option GraphError × BoruvkaState :=
  let sres := sample_supernodes bs.sns bs.reps
  match sres.1 with
  | some e => (some e, { bs with sns := sres.2.2, modified := false })
  | none =>
    let query := sres.2.1
    let sns1 := sres.2.2
    let st := supernodes_to_merge n query bs.reps bs.parent bs.size
    let backedUp := if make_copy && bs.firstRound then st.newReps else bs.backedUp
    let bfile :=
      if make_copy && bs.firstRound && !copyInMem then backup_to_disk sns1 backedUp
      else bs.backupFile
    let merged := merge_supernodes mergeFn copyInMem bs.copySns sns1 st.newReps
      st.toMerge (bs.firstRound && make_copy)
    (none,
     { sns := merged.2, copySns := merged.1, parent := st.parent,
       size := st.size, reps := st.newReps, backedUp := backedUp,
       backupFile := bfile, modified := st.modified, firstRound := false })

/-- Result of running the do-while loop with a given amount of fuel:
`finished` = a round completed with `modified == false`; `raised` = a sketch
exception escaped a round; `out` = the fuel ran out before either happened
(the C++ loop would still be running — this constructor has no counterpart
in the code and only makes the unbounded loop definable). -/
inductive LoopRes where
  | finished : BoruvkaState → LoopRes
  | raised : GraphError → BoruvkaState → LoopRes
  | out : BoruvkaState → LoopRes

/-- Whether the fuel ran out before the loop exited. -/
def LoopRes.isOut : LoopRes → Bool
  | .out _ => true
  | _ => false

/-- The do-while loop of `Graph::boruvka_emulation` (graph.cpp:267-283),
iterated with fuel. -/
def boruvkaLoop (mergeFn : Supernode → Supernode → Supernode) (n : Nat)
    (make_copy copyInMem : Bool) : Nat → BoruvkaState → LoopRes
  | 0, bs => .out bs
  | fuel + 1, bs =>
    match boruvkaRound mergeFn n make_copy copyInMem bs with
    | (some e, bs2) => .raised e bs2
    | (none, bs2) =>
      if bs2.modified then boruvkaLoop mergeFn n make_copy copyInMem fuel bs2
      else .finished bs2

/-- The do-while loop exits (normally or by exception) for some amount of
fuel; this is exactly "the C++ loop terminates" for the given start state. -/
def loopExits (mergeFn : Supernode → Supernode → Supernode) (n : Nat)
    (make_copy copyInMem : Bool) (bs : BoruvkaState) : Prop :=
  ∃ fuel, (boruvkaLoop mergeFn n make_copy copyInMem fuel bs).isOut = false

/-- The final pass of `Graph::boruvka_emulation` (graph.cpp:289-295): insert
every vertex `i < n` into `temp[get_parent(i)]` (threading the path
compression of `get_parent` through the loop), then emit the groups in
ascending key order (`std::map` iteration; under the DSU invariant every key
is a root `< n`).  Returns the groups and the final compressed parent map. -/
def keyStep (n : Nat) (acc : (Nat → Nat) × (Nat → Nat)) (i : Nat) :
    (Nat → Nat) × (Nat → Nat) :=
  let r := get_parent n acc.2 i
  (upd acc.1 i r.1, r.2)

/-- The key-assignment loop of the final pass: thread `get_parent` (with its
compression) over `i = 0, …, n-1`, recording each vertex's key. -/
def cc_key_fold (n : Nat) (p : Nat → Nat) : (Nat → Nat) × (Nat → Nat) :=
  (List.range n).foldl (keyStep n) (fun _ => 0, p)

def cc_grouping (n : Nat) (p : Nat → Nat) : List (List Nat) × (Nat → Nat) :=
  let kp := cc_key_fold n p
  let keyOf := kp.1
  let keys := (List.range n).map keyOf
  let distinctKeys := (List.range n).filter (fun r => keys.contains r)
  (distinctKeys.map (fun r => (List.range n).filter (fun i => keyOf i == r)), kp.2)

/-- Outcome of `Graph::boruvka_emulation`: a partition, a rethrown exception,
or the fuel artifact (see `LoopRes.out`). -/
inductive BoruvkaOutcome where
  | done : List (List Nat) → BoruvkaOutcome
  | raised : GraphError → BoruvkaOutcome
  | fuelOut : BoruvkaOutcome
deriving DecidableEq

/-- Whether the outcome is the fuel artifact. -/
def BoruvkaOutcome.isFuelOut : BoruvkaOutcome → Bool
  | .fuelOut => true
  | _ => false

/-- Ghost trace of one `boruvka_emulation` run: the ids snapshotted on the
first round, whether the `cleanup_copy` lambda was invoked on the exit path
taken, the id list that drove the restore inside it, and the ids (in
ascending order) holding an in-memory clone when the run ended. -/
structure BoruvkaTrace where
  backedUp : List Nat
  cleanupRan : Bool
  restoredIds : List Nat
  clonedIds : List Nat
deriving DecidableEq

/-- The engine state of the `Graph` facade: the fields of `class Graph` that
the claims touch.  `supernodes`, `parent` and `size` model the heap arrays
of `num_nodes` cells (the functions extend them arbitrarily beyond `n`);
`backupFile` models the contents of the on-disk backup file; `copyInMem` is
the `snapshot_in_memory` configuration read at construction.  (The
`num_updates` counter of the source is only printed and is not modelled.) -/
structure Graph where
  numNodes : Nat
  seed : Nat
  failFactor : Nat
  supernodes : Nat → Supernode
  parent : Nat → Nat
  size : Nat → Nat
  updateLocked : Bool
  workersPaused : Bool
  copyInMem : Bool
  backupFile : List SupernodeRecord

/-- The loop state at the top of `Graph::boruvka_emulation`
(graph.cpp:236-248): all vertices are representatives, sizes are refilled
with 1, no clones exist and nothing is backed up yet. -/
def initState (g : Graph) : BoruvkaState :=
  { sns := g.supernodes, copySns := fun _ => none, parent := g.parent,
    size := fun _ => 1, reps := List.range g.numNodes, backedUp := [],
    backupFile := g.backupFile, modified := false, firstRound := true }

/-- The ascending list of ids holding an in-memory clone (ghost data for the
trace). -/
def clonedOf (n : Nat) (copySns : Nat → Option Supernode) : List Nat :=
  (List.range n).filter (fun i => (copySns i).isSome)

/-- `Graph::boruvka_emulation` (graph.cpp:231-301): lock ingest, reset the
`size` array to 1 (the model resets the whole function; the heap array has
only `num_nodes` cells), start from `reps = [0..n)` with no clones and
nothing backed up, run the do-while loop, and on both exits — normal return
and exception — invoke `cleanup_copy` before leaving.  On the normal exit
the partition is computed from the DSU by `cc_grouping` before the restore. -/
def boruvka_emulation (mergeFn : Supernode → Supernode → Supernode) (fuel : Nat)
    (g : Graph) (make_copy : Bool) : BoruvkaOutcome × Graph × BoruvkaTrace :=
  let n := g.numNodes
  let g1 := { g with updateLocked := true }
  match boruvkaLoop mergeFn n make_copy g.copyInMem fuel (initState g) with
  | .raised e bs =>
    let sns2 := cleanup_copy make_copy g.copyInMem bs.backedUp bs.copySns
      bs.backupFile bs.sns
    (.raised e,
     { g1 with supernodes := sns2, parent := bs.parent, size := bs.size,
               backupFile := bs.backupFile },
     ⟨bs.backedUp, true, if make_copy then bs.backedUp else [],
      clonedOf n bs.copySns⟩)
  | .finished bs =>
    let grp := cc_grouping n bs.parent
    let sns2 := cleanup_copy make_copy g.copyInMem bs.backedUp bs.copySns
      bs.backupFile bs.sns
    (.done grp.1,
     { g1 with supernodes := sns2, parent := grp.2, size := bs.size,
               backupFile := bs.backupFile },
     ⟨bs.backedUp, true, if make_copy then bs.backedUp else [],
      clonedOf n bs.copySns⟩)
  | .out bs =>
    (.fuelOut,
     { g1 with supernodes := bs.sns, parent := bs.parent, size := bs.size,
               backupFile := bs.backupFile },
     ⟨bs.backedUp, false, [], clonedOf n bs.copySns⟩)

/-- The `UpdateLockedException` thrown by `Graph::batch_update`. -/
inductive UpdateLockedException where
  | mk : UpdateLockedException
deriving DecidableEq

/-- `Graph::batch_update` (graph.cpp:118-124): throw `UpdateLockedException`
while a query holds the ingest lock; otherwise apply the batch's delta to
`supernodes[src]`.  The delta computation (`generate_delta_node` +
`Supernode::apply_delta_update`, built on external sketch primitives) is the
opaque parameter `applyFn`. -/
def batch_update (applyFn : Supernode → List Nat → Supernode) (g : Graph)
    (src : Nat) (edges : List Nat) : Except UpdateLockedException Graph :=
  if g.updateLocked then .error .mk
  else .ok { g with supernodes := upd g.supernodes src (applyFn (g.supernodes src) edges) }

/-- One iteration of the reset loop of `Graph::connected_components`
(graph.cpp:354-358): rewind supernode `i`'s query cursor and reset its DSU
cells. -/
def resetStep (h : Graph) (i : Nat) : Graph :=
  { h with supernodes := upd h.supernodes i ((h.supernodes i).reset_query_state),
           parent := upd h.parent i i,
           size := upd h.size i 1 }

/-- `Graph::connected_components` (graph.cpp:331-366): flush the gutters and
pause the workers, then run `boruvka_emulation`.  Non-resumable (`cont =
false`): return the partition with the supernodes merged in place (no reset,
no unlock).  Resumable: run with copies, then — whether or not the driver
raised — reset the DSU and every supernode's query cursor for all `i < n`,
release the ingest lock, unpause the workers, and only then rethrow a
captured exception (the outcome carries it). -/
def connected_components (mergeFn : Supernode → Supernode → Supernode)
    (fuel : Nat) (g : Graph) (cont : Bool) : BoruvkaOutcome × Graph × BoruvkaTrace :=
  let g1 := { g with workersPaused := true }
  if !cont then boruvka_emulation mergeFn fuel g1 false
  else
    let r := boruvka_emulation mergeFn fuel g1 true
    let g2 := r.2.1
    let g3 := (List.range g2.numNodes).foldl resetStep g2
    (r.1, { g3 with updateLocked := false, workersPaused := false }, r.2.2)

/-- The binary graph format of §6 / `Graph::write_binary` (graph.cpp:373-387):
seed, vertex count, sketch failure factor, then the supernode records in
vertex-id order. -/
structure BinaryFile where
  seed : Nat
  numNodes : Nat
  failFactor : Nat
  records : List SupernodeRecord

/-- `Graph::write_binary` (graph.cpp:373-387): flush and pause, then
serialize `seed`, `num_nodes`, the failure factor, and each supernode in
vertex-id order. -/
def write_binary (g : Graph) : BinaryFile × Graph :=
  (⟨g.seed, g.numNodes, g.failFactor,
    (List.range g.numNodes).map (fun i => (g.supernodes i).write_binary)⟩,
   { g with workersPaused := true })

/-- The record `Graph.load` uses past the end of the file (never reached:
the loader reads exactly `num_nodes` records and the writer emitted exactly
that many). -/
def defaultRecord : SupernodeRecord :=
  ⟨0, fun _ => .ok ((0, 0), SampleSketchRet.ZERO)⟩

/-- The loading constructor `Graph::Graph(const std::string&, int)`
(graph.cpp:52-89): read seed, vertex count and failure factor, configure the
sketches, rebuild each supernode from its records in vertex order, and start
with the identity DSU, sizes 1, ingest unlocked and workers running.  The
`snapshot_in_memory` configuration is the `copyInMem` argument. -/
def Graph.load (f : BinaryFile) (copyInMem : Bool) : Graph :=
  { numNodes := f.numNodes, seed := f.seed, failFactor := f.failFactor,
    supernodes := fun i => Supernode.makeSupernode (f.records.getD i defaultRecord),
    parent := fun i => i, size := fun _ => 1,
    updateLocked := false, workersPaused := false, copyInMem := copyInMem,
    backupFile := [] }

/-- Set-wise equality of two returned partitions: the same family of
component sets. -/
def partitionSetEq (A B : List (List Nat)) : Prop :=
  (A.map List.toFinset).toFinset = (B.map List.toFinset).toFinset

instance (A B : List (List Nat)) : Decidable (partitionSetEq A B) := by
  unfold partitionSetEq; infer_instance

/-- Sketch correctness of a supernode's sample bank with respect to the
vertex set (§3 of the spec: a sampled edge is a pair of vertices in
`[0, N)`). -/
def banksInRange (n : Nat) (s : Supernode) : Prop :=
  ∀ k e r, s.bank k = .ok (e, r) → e.1 < n ∧ e.2 < n

/-- A supernode all of whose remaining sketch levels report `FAIL`; in
particular (vacuously) an exhausted supernode, whose bank has no levels
left at all — by the §3 invariant its `sample()` returns `FAIL` forever. -/
def samplesFail (s : Supernode) : Prop :=
  ∀ k, k < s.numSketches → ∃ e, s.bank k = .ok (e, SampleSketchRet.FAIL)

/-! ### Concrete fixtures used by witnesses and counterexamples -/

/-- A supernode whose single sketch level always reports a zero vector. -/
def zeroSN : Supernode := ⟨0, 1, fun _ => .ok ((0, 0), .ZERO)⟩

/-- A supernode whose single sketch level always raises `NoGoodBucket`. -/
def errSN : Supernode := ⟨0, 1, fun _ => .error .NoGoodBucketErr⟩

/-- An exhausted supernode: no sketch levels at all, so `sample()` returns
`FAIL` forever (§3 invariant). -/
def exhSN : Supernode := ⟨0, 0, fun _ => .ok ((0, 0), .FAIL)⟩

/-- A trivial (left-projection) sketch merge for concrete runs. -/
def constMerge : Supernode → Supernode → Supernode := fun a _ => a

/-- A trivial batch-delta application for concrete runs. -/
def constApply : Supernode → List Nat → Supernode := fun s _ => s

/-- Concrete engine state: one isolated vertex with a zero sketch. -/
def gOne : Graph :=
  { numNodes := 1, seed := 0, failFactor := 0, supernodes := fun _ => zeroSN,
    parent := fun i => i, size := fun _ => 1, updateLocked := false,
    workersPaused := false, copyInMem := true, backupFile := [] }

/-- Concrete engine state: one vertex whose sketch raises `NoGoodBucket`. -/
def gErr : Graph :=
  { numNodes := 1, seed := 0, failFactor := 0, supernodes := fun _ => errSN,
    parent := fun i => i, size := fun _ => 1, updateLocked := false,
    workersPaused := false, copyInMem := true, backupFile := [] }

/-- Concrete engine state: two isolated vertices with zero sketches and a
clean (identity) DSU. -/
def gTwo : Graph :=
  { numNodes := 2, seed := 5, failFactor := 7, supernodes := fun _ => zeroSN,
    parent := fun i => i, size := fun _ => 1, updateLocked := false,
    workersPaused := false, copyInMem := true, backupFile := [] }

/-- Concrete engine state: two vertices with zero sketches but a dirty DSU
(`parent = [0, 0]`, as an in-place query can leave behind). -/
def gDirty : Graph :=
  { numNodes := 2, seed := 5, failFactor := 7, supernodes := fun _ => zeroSN,
    parent := fun i => if i = 1 then 0 else i, size := fun _ => 1,
    updateLocked := false, workersPaused := false, copyInMem := true,
    backupFile := [] }

/-- Concrete engine state in canonical (freshly loaded) form: two vertices
with zero sketches, default cells beyond the vertex count. -/
def gCanon : Graph :=
  { numNodes := 2, seed := 5, failFactor := 7,
    supernodes := fun i =>
      if i < 2 then zeroSN else Supernode.makeSupernode defaultRecord,
    parent := fun i => i, size := fun _ => 1, updateLocked := false,
    workersPaused := false, copyInMem := true, backupFile := [] }

/-- Concrete driver loop state: one exhausted supernode as the only
representative. -/
def bsExh : BoruvkaState :=
  { sns := fun _ => exhSN, copySns := fun _ => none, parent := fun i => i,
    size := fun _ => 1, reps := [0], backedUp := [], backupFile := [],
    modified := false, firstRound := true }

/-! ## Union-find theory

Lemmas about `RootOf`, `rootF` and `get_parent`: path compression preserves
roots, union-by-size reroutes exactly the merged class, and on acyclic
states fuel `n` suffices for `get_parent` to compute the root. -/

theorem upd_self {α : Type} (f : Nat → α) (i : Nat) (v : α) : upd f i v i = v := by
  simp [upd]

theorem upd_ne {α : Type} (f : Nat → α) {i j : Nat} (v : α) (h : j ≠ i) :
    upd f i v j = f j := by
  simp [upd, h]

theorem rootOf_root {p : Nat → Nat} {r : Nat} (h : p r = r) : RootOf p r r :=
  ⟨0, rfl, h⟩

theorem rootOf_isRoot {p : Nat → Nat} {x r : Nat} (h : RootOf p x r) : p r = r := by
  obtain ⟨k, -, hr⟩ := h; exact hr

theorem rootOf_of_parent {p : Nat → Nat} {x r : Nat} (h : RootOf p (p x) r) :
    RootOf p x r := by
  obtain ⟨k, hk, hr⟩ := h
  exact ⟨k + 1, by rw [Function.iterate_succ_apply]; exact hk, hr⟩

theorem rootOf_uniq {p : Nat → Nat} {x r s : Nat} (h1 : RootOf p x r)
    (h2 : RootOf p x s) : r = s := by
  obtain ⟨k1, hk1, hr1⟩ := h1
  obtain ⟨k2, hk2, hr2⟩ := h2
  rcases Nat.le_total k1 k2 with h | h
  · have : p^[k2 - k1 + k1] x = r := by
      rw [Function.iterate_add_apply, hk1]
      exact Function.iterate_fixed hr1 _
    rw [Nat.sub_add_cancel h, hk2] at this
    exact this.symm
  · have : p^[k1 - k2 + k2] x = s := by
      rw [Function.iterate_add_apply, hk2]
      exact Function.iterate_fixed hr2 _
    rw [Nat.sub_add_cancel h, hk1] at this
    exact this

theorem iterate_lt {n : Nat} {p : Nat → Nat} (hcl : ∀ x, x < n → p x < n)
    {x : Nat} (hx : x < n) (k : Nat) : p^[k] x < n := by
  induction k with
  | zero => simpa
  | succ k ih => rw [Function.iterate_succ_apply']; exact hcl _ ih

theorem rootOf_lt {n : Nat} {p : Nat → Nat} (hcl : ∀ x, x < n → p x < n)
    {x r : Nat} (hx : x < n) (h : RootOf p x r) : r < n := by
  obtain ⟨k, hk, -⟩ := h
  rw [← hk]
  exact iterate_lt hcl hx k

/-- Pigeonhole bound: on an acyclic parent map over `[0, n)`, the root of a
vertex is reached in fewer than `n` steps (the minimal chain visits distinct
vertices). -/
theorem rootOf_within {n : Nat} {p : Nat → Nat} (hcl : ∀ x, x < n → p x < n)
    {x r : Nat} (hx : x < n) (h : RootOf p x r) : ∃ k, k < n ∧ p^[k] x = r := by
  classical
  obtain ⟨k0, hk0, hr⟩ := h
  have hex : ∃ k, p^[k] x = r := ⟨k0, hk0⟩
  by_cases hKn : Nat.find hex < n
  · exact ⟨Nat.find hex, hKn, Nat.find_spec hex⟩
  · exfalso
    push_neg at hKn
    have hKr : p^[Nat.find hex] x = r := Nat.find_spec hex
    have key : ∀ i j : Nat, i < j → j ≤ Nat.find hex → p^[i] x = p^[j] x → False := by
      intro i j hij hjK heq
      have h1 : p^[Nat.find hex - j + j] x = r := by
        rw [Nat.sub_add_cancel hjK]; exact hKr
      rw [Function.iterate_add_apply, ← heq, ← Function.iterate_add_apply] at h1
      exact Nat.find_min hex (by omega) h1
    have hinj : Function.Injective
        (fun i : Fin (Nat.find hex + 1) => (⟨p^[i.1] x, iterate_lt hcl hx i.1⟩ : Fin n)) := by
      intro i j hij
      have hval : p^[i.1] x = p^[j.1] x := congrArg Fin.val hij
      rcases Nat.lt_trichotomy i.1 j.1 with h | h | h
      · exact absurd hval (fun hv => key _ _ h (Nat.lt_succ_iff.mp j.2) hv)
      · exact Fin.ext h
      · exact absurd hval.symm (fun hv => key _ _ h (Nat.lt_succ_iff.mp i.2) hv)
    have hcard := Fintype.card_le_of_injective _ hinj
    simp only [Fintype.card_fin] at hcard
    omega

theorem rootF_eq {p : Nat → Nat} {r : Nat} (hr : p r = r) :
    ∀ {f k x : Nat}, k ≤ f → p^[k] x = r → rootF f p x = r := by
  intro f
  induction f with
  | zero =>
    intro k x hk hit
    interval_cases k
    simpa [rootF] using hit
  | succ f ih =>
    intro k x hk hit
    by_cases hx : p x = x
    · have hfix : p^[k] x = x := Function.iterate_fixed hx k
      rw [hfix] at hit
      subst hit
      simp [rootF, hx]
    · cases k with
      | zero =>
        simp only [Function.iterate_zero, id_eq] at hit
        subst hit
        exact absurd hr hx
      | succ k =>
        rw [Function.iterate_succ_apply] at hit
        simp only [rootF, hx, if_false]
        exact ih (Nat.succ_le_succ_iff.mp hk) hit

/-- On a valid DSU state, `rootF` with fuel `n` computes the root relation. -/
theorem dsu_rootF {n : Nat} {p : Nat → Nat} (h : DSUinv n p) {x : Nat}
    (hx : x < n) : RootOf p x (rootF n p x) := by
  obtain ⟨r, hr⟩ := h.2 x hx
  obtain ⟨k, hkn, hit⟩ := rootOf_within h.1 hx hr
  rw [rootF_eq (rootOf_isRoot hr) (Nat.le_of_lt hkn) hit]
  exact hr

theorem get_parent_fst (f : Nat) (p : Nat → Nat) (x : Nat) :
    (get_parent f p x).1 = rootF f p x := by
  induction f generalizing p x with
  | zero => rfl
  | succ f ih =>
    by_cases hx : p x = x <;> simp [get_parent, rootF, hx, ih]

/-- Redirecting one vertex to its own root preserves every root relation. -/
theorem rootOf_upd_root {p : Nat → Nat} {u r : Nat} (hu : RootOf p u r) :
    ∀ {y s : Nat}, RootOf p y s → RootOf (upd p u r) y s := by
  intro y s hy
  obtain ⟨k, hk, hs⟩ := hy
  induction k generalizing y with
  | zero =>
    simp only [Function.iterate_zero, id_eq] at hk
    subst hk
    refine rootOf_root ?_
    by_cases hsu : y = u
    · have hru : r = u := rootOf_uniq hu (rootOf_root (by rw [← hsu]; exact hs))
      rw [hsu, upd_self p u r]
      exact hru
    · rw [upd_ne p r hsu]; exact hs
  | succ k ih =>
    by_cases hyu : y = u
    · have hys : RootOf p u s := by rw [← hyu]; exact ⟨k + 1, hk, hs⟩
      have hsr : s = r := rootOf_uniq hys hu
      rw [hyu, hsr]
      by_cases hru : r = u
      · rw [hru]
        exact rootOf_root (upd_self p u u)
      · refine ⟨1, by simpa using upd_self p u r, ?_⟩
        rw [upd_ne p r hru]
        exact rootOf_isRoot hu
    · by_cases hyy : p y = y
      · have hfix := Function.iterate_fixed hyy (k + 1)
        rw [hk] at hfix
        rw [hfix]
        exact rootOf_root (by rw [upd_ne p r hyu]; exact hyy)
      · rw [Function.iterate_succ_apply] at hk
        obtain ⟨k2, hk2, hs2⟩ := ih hk
        exact ⟨k2 + 1, by rw [Function.iterate_succ_apply, upd_ne p r hyu]; exact hk2, hs2⟩

/-- Union of two distinct roots: `parent[b] = a` reroutes exactly the class
of `b` to `a` and leaves every other root relation unchanged. -/
theorem rootOf_union {p : Nat → Nat} {a b : Nat} (ha : p a = a) (hb : p b = b)
    (hab : a ≠ b) :
    ∀ {y s : Nat}, RootOf p y s → RootOf (upd p b a) y (if s = b then a else s) := by
  have hqa : upd p b a a = a := by rw [upd_ne p a hab]; exact ha
  intro y s hy
  obtain ⟨k, hk, hs⟩ := hy
  induction k generalizing y with
  | zero =>
    simp only [Function.iterate_zero, id_eq] at hk
    subst hk
    by_cases hsb : y = b
    · rw [if_pos hsb, hsb]
      exact ⟨1, by simpa using upd_self p b a, hqa⟩
    · rw [if_neg hsb]
      exact rootOf_root (by rw [upd_ne p a hsb]; exact hs)
  | succ k ih =>
    by_cases hyb : y = b
    · have hpy : p y = y := by rw [hyb]; exact hb
      have hfix := Function.iterate_fixed hpy (k + 1)
      rw [hk] at hfix
      have hsb : s = b := by rw [hfix]; exact hyb
      rw [if_pos hsb, hyb]
      exact ⟨1, by simpa using upd_self p b a, hqa⟩
    · by_cases hyy : p y = y
      · have hfix := Function.iterate_fixed hyy (k + 1)
        rw [hk] at hfix
        have hsb : ¬s = b := by rw [hfix]; exact hyb
        rw [if_neg hsb, hfix]
        exact rootOf_root (by rw [upd_ne p a hyb]; exact hyy)
      · rw [Function.iterate_succ_apply] at hk
        obtain ⟨k2, hk2, hs2⟩ := ih hk
        exact ⟨k2 + 1, by rw [Function.iterate_succ_apply, upd_ne p a hyb]; exact hk2, hs2⟩

/-- Specification of `get_parent` on a chain that reaches its root within
the fuel: the returned value is that root, the compressed parent map keeps
every root relation, and every rewritten entry points to the root of its
cell. -/
theorem get_parent_spec {p : Nat → Nat} {r0 : Nat} (hr : p r0 = r0) :
    ∀ {f k x : Nat}, k ≤ f → p^[k] x = r0 →
      (get_parent f p x).1 = r0 ∧
      (∀ y s, RootOf p y s → RootOf (get_parent f p x).2 y s) ∧
      (∀ z, (get_parent f p x).2 z = p z ∨ RootOf p z ((get_parent f p x).2 z)) := by
  intro f
  induction f with
  | zero =>
    intro k x hk hit
    interval_cases k
    simp only [Function.iterate_zero, id_eq] at hit
    subst hit
    exact ⟨rfl, fun y s h => h, fun z => .inl rfl⟩
  | succ f ih =>
    intro k x hk hit
    by_cases hx : p x = x
    · have hfix : p^[k] x = x := Function.iterate_fixed hx k
      rw [hfix] at hit
      subst hit
      have hgp : get_parent (f + 1) p x = (x, p) := by simp [get_parent, hx]
      rw [hgp]
      exact ⟨rfl, fun y s h => h, fun z => .inl rfl⟩
    · have hk1 : k ≠ 0 := by
        rintro rfl
        simp only [Function.iterate_zero, id_eq] at hit
        subst hit
        exact hx hr
      obtain ⟨k2, rfl⟩ := Nat.exists_eq_succ_of_ne_zero hk1
      have hit2 : p^[k2] (p x) = r0 := by
        rw [← Function.iterate_succ_apply]; exact hit
      obtain ⟨h1, h2, h3⟩ := ih (Nat.succ_le_succ_iff.mp hk) hit2
      have hxroot : RootOf p x r0 := ⟨k2 + 1, hit, hr⟩
      have hxq : RootOf (get_parent f p (p x)).2 x (get_parent f p (p x)).1 := by
        rw [h1]; exact h2 x r0 hxroot
      have hgp : get_parent (f + 1) p x =
          ((get_parent f p (p x)).1,
           upd (get_parent f p (p x)).2 x (get_parent f p (p x)).1) := by
        simp [get_parent, hx]
      rw [hgp]
      dsimp only
      refine ⟨h1, ?_, ?_⟩
      · intro y s hy
        exact rootOf_upd_root hxq (h2 y s hy)
      · intro z
        by_cases hz : z = x
        · right
          subst hz
          rw [upd_self, h1]
          exact hxroot
        · rw [upd_ne _ _ hz]
          exact h3 z

/-- `get_parent` with fuel `n` on a valid DSU state: the returned value is
the root of the argument, root relations are preserved by the compression,
every entry is unchanged or redirected to its cell's root, and the result
is again a valid DSU state. -/
theorem get_parent_sound {n : Nat} {p : Nat → Nat} (h : DSUinv n p) {x : Nat}
    (hx : x < n) :
    RootOf p x (get_parent n p x).1 ∧
    (∀ y s, RootOf p y s → RootOf (get_parent n p x).2 y s) ∧
    DSUinv n (get_parent n p x).2 := by
  obtain ⟨r, hr⟩ := h.2 x hx
  obtain ⟨k, hkn, hit⟩ := rootOf_within h.1 hx hr
  obtain ⟨h1, h2, h3⟩ := get_parent_spec (rootOf_isRoot hr) (Nat.le_of_lt hkn) hit
  refine ⟨by rw [h1]; exact hr, h2, ⟨?_, ?_⟩⟩
  · intro z hz
    rcases h3 z with hz2 | hz2
    · rw [hz2]; exact h.1 z hz
    · exact rootOf_lt h.1 hz hz2
  · intro z hz
    obtain ⟨s, hs⟩ := h.2 z hz
    exact ⟨s, h2 z s hs⟩

/-- Root relations transfer back from a root-preserving successor map. -/
theorem rootOf_back {n : Nat} {p q : Nat → Nat} (h : DSUinv n p)
    (pres : ∀ y s, RootOf p y s → RootOf q y s) {y s : Nat} (hy : y < n)
    (hqy : RootOf q y s) : RootOf p y s := by
  obtain ⟨s0, hs0⟩ := h.2 y hy
  have : s = s0 := rootOf_uniq hqy (pres y s0 hs0)
  rw [this]
  exact hs0

/-! ## Invariants of the merge-planning pass -/

/-- One planning step preserves the DSU invariant and maintains that every
vertex with a nonempty `to_merge` list is its own parent. -/
theorem planStep_inv {n : Nat} {query : Nat → QueryRes} {st : PlanState} {i : Nat}
    (hq : (query i).2 = SampleSketchRet.GOOD →
      (query i).1.1 < n ∧ (query i).1.2 < n)
    (h1 : DSUinv n st.parent)
    (h2 : ∀ a, st.toMerge a ≠ [] → st.parent a = a) :
    DSUinv n (planStep n query st i).parent ∧
    (∀ a, (planStep n query st i).toMerge a ≠ [] →
      (planStep n query st i).parent a = a) := by
  rcases hret : (query i).2 with _ | _ | _
  case ZERO =>
    simp only [planStep, hret]
    exact ⟨h1, h2⟩
  case FAIL =>
    simp only [planStep, hret]
    exact ⟨h1, h2⟩
  case GOOD =>
    obtain ⟨hx, hy⟩ := hq hret
    obtain ⟨ga1, ga2, ga3⟩ := get_parent_sound h1 hx
    obtain ⟨gb1, gb2, gb3⟩ := get_parent_sound ga3 hy
    set p1 := (get_parent n st.parent (query i).1.1).2 with hp1
    set a0 := (get_parent n st.parent (query i).1.1).1 with ha0
    set p2 := (get_parent n p1 (query i).1.2).2 with hp2
    set b0 := (get_parent n p1 (query i).1.2).1 with hb0
    have hroot_a0_p2 : p2 a0 = a0 := by
      have : RootOf p2 a0 a0 :=
        gb2 a0 a0 (rootOf_root (rootOf_isRoot (ga2 _ _ ga1)))
      exact rootOf_isRoot this
    have hroot_b0_p2 : p2 b0 = b0 := rootOf_isRoot (gb2 _ _ gb1)
    have pres12 : ∀ y s, RootOf st.parent y s → RootOf p2 y s :=
      fun y s h => gb2 y s (ga2 y s h)
    have hfix2 : ∀ a, st.parent a = a → p2 a = a := by
      intro a ha
      exact rootOf_isRoot (pres12 a a (rootOf_root ha))
    by_cases hab : a0 = b0
    · simp only [planStep, hret, if_pos hab]
      refine ⟨gb3, ?_⟩
      intro a ha
      exact hfix2 a (h2 a ha)
    · simp only [planStep, hret, if_neg hab]
      set a := if st.size a0 < st.size b0 then b0 else a0 with ha
      set b := if st.size a0 < st.size b0 then a0 else b0 with hb
      have hmem : (a = a0 ∧ b = b0) ∨ (a = b0 ∧ b = a0) := by
        by_cases hsz : st.size a0 < st.size b0
        · right; rw [ha, hb]; simp [hsz]
        · left; rw [ha, hb]; simp [hsz]
      have hra : p2 a = a := by
        rcases hmem with ⟨h5, -⟩ | ⟨h5, -⟩ <;> rw [h5]
        · exact hroot_a0_p2
        · exact hroot_b0_p2
      have hrb : p2 b = b := by
        rcases hmem with ⟨-, h5⟩ | ⟨-, h5⟩ <;> rw [h5]
        · exact hroot_b0_p2
        · exact hroot_a0_p2
      have hab2 : a ≠ b := by
        rcases hmem with ⟨h5, h6⟩ | ⟨h5, h6⟩ <;> rw [h5, h6]
        · exact hab
        · exact Ne.symm hab
      have haln : a < n := by
        rcases hmem with ⟨h5, -⟩ | ⟨h5, -⟩ <;> rw [h5]
        · exact rootOf_lt h1.1 hx ga1
        · exact rootOf_lt ga3.1 hy gb1
      refine ⟨⟨?_, ?_⟩, ?_⟩
      · intro z hz
        by_cases hzb : z = b
        · rw [hzb, upd_self]; exact haln
        · rw [upd_ne _ _ hzb]; exact gb3.1 z hz
      · intro z hz
        obtain ⟨s, hs⟩ := gb3.2 z hz
        exact ⟨_, rootOf_union hra hrb hab2 hs⟩
      · intro c hc
        by_cases hca : c = a
        · rw [hca, upd_ne _ _ hab2]
          exact hra
        · by_cases hcb : c = b
          · exfalso
            apply hc
            simp only [if_neg hca, if_pos hcb]
          · have hcm : st.toMerge c ≠ [] := by
              simpa only [if_neg hca, if_neg hcb] using hc
            rw [upd_ne _ _ hcb]
            exact hfix2 c (h2 c hcm)

/-- The planning fold preserves the DSU invariant and the
merge-destinations-are-roots property. -/
theorem planFold_inv {n : Nat} {query : Nat → QueryRes}
    (hq : ∀ i, (query i).2 = SampleSketchRet.GOOD →
      (query i).1.1 < n ∧ (query i).1.2 < n) :
    ∀ (reps : List Nat) (st : PlanState),
    DSUinv n st.parent → (∀ a, st.toMerge a ≠ [] → st.parent a = a) →
    DSUinv n (reps.foldl (planStep n query) st).parent ∧
    (∀ a, (reps.foldl (planStep n query) st).toMerge a ≠ [] →
      (reps.foldl (planStep n query) st).parent a = a) := by
  intro reps
  induction reps with
  | nil => intro st h1 h2; exact ⟨h1, h2⟩
  | cons i rest ih =>
    intro st h1 h2
    simp only [List.foldl_cons]
    obtain ⟨h1s, h2s⟩ := planStep_inv (hq i) h1 h2
    exact ih _ h1s h2s

/-- The whole planning pass: the DSU invariant holds afterwards, every
vertex with pending merges is its own parent, and every such vertex `< n`
is listed in the new representative list. -/
theorem supernodes_to_merge_inv {n : Nat} {query : Nat → QueryRes}
    {reps : List Nat} {parent size : Nat → Nat}
    (hq : ∀ i, (query i).2 = SampleSketchRet.GOOD →
      (query i).1.1 < n ∧ (query i).1.2 < n)
    (h1 : DSUinv n parent) :
    DSUinv n (supernodes_to_merge n query reps parent size).parent ∧
    (∀ a, (supernodes_to_merge n query reps parent size).toMerge a ≠ [] →
      (supernodes_to_merge n query reps parent size).parent a = a) ∧
    (∀ a, a < n → (supernodes_to_merge n query reps parent size).toMerge a ≠ [] →
      a ∈ (supernodes_to_merge n query reps parent size).newReps) := by
  have h0 : (∀ a, (⟨parent, size, fun _ => [], [], false⟩ : PlanState).toMerge a ≠ [] →
      (⟨parent, size, fun _ => [], [], false⟩ : PlanState).parent a = a) := by
    intro a ha
    exact absurd rfl ha
  obtain ⟨hf1, hf2⟩ := planFold_inv hq reps ⟨parent, size, fun _ => [], [], false⟩ h1 h0
  refine ⟨hf1, hf2, ?_⟩
  intro a haln ham
  simp only [supernodes_to_merge] at ham ⊢
  apply List.mem_append_right
  rw [List.mem_filter]
  refine ⟨List.mem_range.mpr haln, ?_⟩
  simp only [Bool.not_eq_true']
  rw [← Bool.not_eq_true]
  intro hemp
  exact ham (List.isEmpty_iff.mp hemp)

/-- Advancing a cursor does not change a supernode's bank. -/
theorem sample_banksInRange {n : Nat} {s : Supernode} (h : banksInRange n s) :
    banksInRange n s.sample.2 := by
  intro k e r hk
  exact h k e r hk

/-- A sample from a bank-correct supernode is an error, an exhausted `FAIL`,
or an in-range result. -/
theorem sample_result {n : Nat} {s : Supernode} (h : banksInRange n s) :
    ∀ v, s.sample.1 = .ok v → v.2 = SampleSketchRet.GOOD → v.1.1 < n ∧ v.1.2 < n := by
  intro v hv hg
  unfold Supernode.sample at hv
  by_cases hex : s.numSketches ≤ s.idx
  · rw [if_pos hex] at hv
    simp only [Except.ok.injEq] at hv
    rw [← hv] at hg
    exact absurd hg (by simp)
  · rw [if_neg hex] at hv
    obtain ⟨e, r, rfl⟩ : ∃ e r, v = (e, r) := ⟨v.1, v.2, rfl⟩
    exact h _ _ _ hv

/-- Sampling preserves bank correctness (only cursors move) and produces
only in-range `GOOD` edges in the `query` array. -/
theorem sample_inv {n : Nat} {sns : Nat → Supernode} {reps : List Nat}
    (hb : ∀ i, banksInRange n (sns i)) :
    (∀ i, banksInRange n ((sample_supernodes sns reps).2.2 i)) ∧
    (∀ j, ((sample_supernodes sns reps).2.1 j).2 = SampleSketchRet.GOOD →
      ((sample_supernodes sns reps).2.1 j).1.1 < n ∧
      ((sample_supernodes sns reps).2.1 j).1.2 < n) := by
  unfold sample_supernodes
  suffices h : ∀ (l : List Nat)
      (acc : Option GraphError × (Nat → QueryRes) × (Nat → Supernode)),
      (∀ i, banksInRange n (acc.2.2 i)) →
      (∀ j, (acc.2.1 j).2 = SampleSketchRet.GOOD →
        (acc.2.1 j).1.1 < n ∧ (acc.2.1 j).1.2 < n) →
      (∀ i, banksInRange n ((l.foldl sampleStep acc).2.2 i)) ∧
      (∀ j, ((l.foldl sampleStep acc).2.1 j).2 = SampleSketchRet.GOOD →
        ((l.foldl sampleStep acc).2.1 j).1.1 < n ∧
        ((l.foldl sampleStep acc).2.1 j).1.2 < n) by
    exact h reps _ hb (fun j hj => by simp at hj)
  intro l
  induction l with
  | nil => exact fun acc h1 h2 => ⟨h1, h2⟩
  | cons i rest ih =>
    intro acc h1 h2
    simp only [List.foldl_cons]
    apply ih
    · intro j
      unfold sampleStep
      rcases hres : (acc.2.2 i).sample.1 with e | v
      · simp only [hres]
        by_cases hj : j = i
        · rw [hj]
          try dsimp only
          rw [upd_self]
          exact sample_banksInRange (h1 i)
        · dsimp only
          rw [upd_ne _ _ hj]
          exact h1 j
      · simp only [hres]
        by_cases hj : j = i
        · rw [hj]
          try dsimp only
          rw [upd_self]
          exact sample_banksInRange (h1 i)
        · dsimp only
          rw [upd_ne _ _ hj]
          exact h1 j
    · intro j
      unfold sampleStep
      rcases hres : (acc.2.2 i).sample.1 with e | v
      · simp only [hres]
        exact h2 j
      · simp only [hres]
        by_cases hj : j = i
        · rw [hj]
          try dsimp only
          rw [upd_self]
          exact sample_result (h1 i) v hres
        · dsimp only
          rw [upd_ne _ _ hj]
          exact h2 j

/-- Merging preserves bank correctness when the sketch merge does. -/
theorem merge_inv {n : Nat} {mergeFn : Supernode → Supernode → Supernode}
    (Hm : ∀ s t, banksInRange n s → banksInRange n t → banksInRange n (mergeFn s t))
    {cim mc : Bool} {toMerge : Nat → List Nat} :
    ∀ (l : List Nat) (acc : (Nat → Option Supernode) × (Nat → Supernode)),
    (∀ i, banksInRange n (acc.2 i)) →
    (∀ i, banksInRange n ((l.foldl (mergeStep mergeFn cim mc toMerge) acc).2 i)) := by
  intro l
  induction l with
  | nil => exact fun acc h => h
  | cons a rest ih =>
    intro acc h
    simp only [List.foldl_cons]
    apply ih
    intro j
    unfold mergeStep
    dsimp only
    by_cases hj : j = a
    · rw [hj, upd_self]
      have : ∀ (bs : List Nat) (s : Supernode), banksInRange n s →
          banksInRange n (bs.foldl (fun s b => mergeFn s (acc.2 b)) s) := by
        intro bs
        induction bs with
        | nil => exact fun s hs => hs
        | cons b rest2 ih2 =>
          intro s hs
          simp only [List.foldl_cons]
          exact ih2 _ (Hm _ _ hs (h b))
      exact this _ _ (h a)
    · rw [upd_ne _ _ hj]
      exact h j

/-- Unfolding equation of the do-while loop. -/
theorem boruvkaLoop_succ (mergeFn : Supernode → Supernode → Supernode)
    (n : Nat) (mc cim : Bool) (fuel : Nat) (bs : BoruvkaState) :
    boruvkaLoop mergeFn n mc cim (fuel + 1) bs =
      match boruvkaRound mergeFn n mc cim bs with
      | (some e, bs2) => .raised e bs2
      | (none, bs2) =>
        if bs2.modified then boruvkaLoop mergeFn n mc cim fuel bs2
        else .finished bs2 := rfl

/-- One driver round preserves the DSU invariant and bank correctness. -/
theorem round_inv {mergeFn : Supernode → Supernode → Supernode} {n : Nat}
    {mc cim : Bool} {bs : BoruvkaState}
    (Hm : ∀ s t, banksInRange n s → banksInRange n t → banksInRange n (mergeFn s t))
    (h1 : DSUinv n bs.parent) (hb : ∀ i, banksInRange n (bs.sns i)) :
    DSUinv n (boruvkaRound mergeFn n mc cim bs).2.parent ∧
    (∀ i, banksInRange n ((boruvkaRound mergeFn n mc cim bs).2.sns i)) := by
  obtain ⟨hs1, hs2⟩ := @sample_inv n bs.sns bs.reps hb
  unfold boruvkaRound
  rcases herr : (sample_supernodes bs.sns bs.reps).1 with _ | e
  · simp only [herr]
    exact ⟨(supernodes_to_merge_inv hs2 h1).1, merge_inv Hm _ _ hs1⟩
  · simp only [herr]
    exact ⟨h1, hs1⟩

/-- The driver loop preserves the DSU invariant up to its exit state, on
both the normal and the exceptional exit. -/
theorem loop_inv {mergeFn : Supernode → Supernode → Supernode} {n : Nat}
    {mc cim : Bool}
    (Hm : ∀ s t, banksInRange n s → banksInRange n t → banksInRange n (mergeFn s t)) :
    ∀ (fuel : Nat) (bs : BoruvkaState), DSUinv n bs.parent →
    (∀ i, banksInRange n (bs.sns i)) →
    ∀ bs2, (boruvkaLoop mergeFn n mc cim fuel bs = .finished bs2 ∨
            ∃ e, boruvkaLoop mergeFn n mc cim fuel bs = .raised e bs2) →
    DSUinv n bs2.parent := by
  intro fuel
  induction fuel with
  | zero =>
    intro bs h1 hb bs2 h
    rcases h with h | ⟨e, h⟩ <;> simp [boruvkaLoop] at h
  | succ fuel ih =>
    intro bs h1 hb bs2 h
    obtain ⟨r1, r2⟩ := @round_inv mergeFn n mc cim bs Hm h1 hb
    rw [boruvkaLoop_succ] at h
    rcases hr : boruvkaRound mergeFn n mc cim bs with ⟨oe, bsr⟩
    rw [hr] at h r1 r2
    rcases oe with _ | e2
    · by_cases hmod : bsr.modified
      · simp only [hmod, if_pos] at h
        exact ih bsr r1 r2 bs2 h
      · simp only [hmod, if_neg, Bool.false_eq_true, if_false] at h
        rcases h with h | ⟨e, h⟩
        · cases h
          exact r1
        · cases h
    · rcases h with h | ⟨e, h⟩
      · cases h
      · cases h
        exact r1

/-- Cells not visited by the key-assignment fold keep their key. -/
theorem key_fold_untouched (n : Nat) :
    ∀ (l : List Nat) (acc : (Nat → Nat) × (Nat → Nat)) {j : Nat}, j ∉ l →
    (l.foldl (keyStep n) acc).1 j = acc.1 j := by
  intro l
  induction l with
  | nil => intro acc j h; rfl
  | cons i rest ih =>
    intro acc j h
    simp only [List.foldl_cons]
    rw [ih _ (fun hm => h (List.mem_cons_of_mem _ hm))]
    unfold keyStep
    dsimp only
    exact upd_ne _ _ (fun hj => h (hj ▸ List.mem_cons_self i rest))

/-- The key-assignment fold of the final pass: the threaded compression
keeps the DSU invariant and every root relation, and assigns every visited
vertex the root of its class (with respect to the parent map at entry). -/
theorem key_fold_inv {n : Nat} {p : Nat → Nat} (hp : DSUinv n p) :
    ∀ (l : List Nat) (acc : (Nat → Nat) × (Nat → Nat)),
    (∀ j, j ∈ l → j < n) →
    DSUinv n acc.2 → (∀ y s, RootOf p y s → RootOf acc.2 y s) →
    DSUinv n (l.foldl (keyStep n) acc).2 ∧
    (∀ y s, RootOf p y s → RootOf (l.foldl (keyStep n) acc).2 y s) ∧
    (∀ j, j ∈ l → RootOf p j ((l.foldl (keyStep n) acc).1 j)) := by
  intro l
  induction l with
  | nil =>
    intro acc hl h1 h2
    exact ⟨h1, h2, fun j hj => absurd hj (List.not_mem_nil j)⟩
  | cons i rest ih =>
    intro acc hl h1 h2
    have hin : i < n := hl i (List.mem_cons_self i rest)
    obtain ⟨g1, g2, g3⟩ := get_parent_sound h1 hin
    have h2' : ∀ y s, RootOf p y s → RootOf (keyStep n acc i).2 y s :=
      fun y s h => g2 y s (h2 y s h)
    simp only [List.foldl_cons]
    obtain ⟨f1, f2, f3⟩ := ih (keyStep n acc i)
      (fun j hj => hl j (List.mem_cons_of_mem _ hj)) g3 h2'
    refine ⟨f1, f2, ?_⟩
    intro j hj
    rcases List.mem_cons.mp hj with rfl | hjr
    · by_cases hir : j ∈ rest
      · exact f3 j hir
      · rw [key_fold_untouched n rest _ hir]
        unfold keyStep
        dsimp only
        rw [upd_self]
        exact rootOf_back hp h2 hin g1
    · exact f3 j hjr

/-- Correctness of the final grouping pass on a valid DSU state: the
returned list of sets covers exactly `[0, n)`, the sets are pairwise
disjoint, and each set consists of exactly the vertices of one root's
class. -/
theorem cc_grouping_spec {n : Nat} {p : Nat → Nat} (hp : DSUinv n p) :
    (∀ v, (∃ s, s ∈ (cc_grouping n p).1 ∧ v ∈ s) ↔ v < n) ∧
    List.Pairwise (fun s t => ∀ v, v ∈ s → v ∉ t) (cc_grouping n p).1 ∧
    (∀ s, s ∈ (cc_grouping n p).1 → ∃ r, r < n ∧ (cc_grouping n p).2 r = r ∧
      ∀ v, v ∈ s ↔ (v < n ∧ RootOf (cc_grouping n p).2 v r)) := by
  have hck : cc_key_fold n p = (List.range n).foldl (keyStep n) (fun _ => 0, p) := rfl
  obtain ⟨f1, f2, f3⟩ := key_fold_inv hp (List.range n) (fun _ => 0, p)
    (fun j hj => List.mem_range.mp hj) hp (fun y s h => h)
  rw [← hck] at f1 f2 f3
  have hroot : ∀ v, v < n → RootOf p v ((cc_key_fold n p).1 v) :=
    fun v hv => f3 v (List.mem_range.mpr hv)
  have hrootfin : ∀ v, v < n → RootOf (cc_key_fold n p).2 v ((cc_key_fold n p).1 v) :=
    fun v hv => f2 _ _ (hroot v hv)
  have hkeylt : ∀ v, v < n → (cc_key_fold n p).1 v < n :=
    fun v hv => rootOf_lt hp.1 hv (hroot v hv)
  have hparts : (cc_grouping n p).1 =
      (((List.range n).filter
        (fun r => ((List.range n).map (cc_key_fold n p).1).contains r)).map
        (fun r => (List.range n).filter (fun i => (cc_key_fold n p).1 i == r))) := rfl
  have hpfin : (cc_grouping n p).2 = (cc_key_fold n p).2 := rfl
  -- membership in a group characterizes the key
  have hmemgrp : ∀ r v, v ∈ (List.range n).filter (fun i => (cc_key_fold n p).1 i == r) ↔
      (v < n ∧ (cc_key_fold n p).1 v = r) := by
    intro r v
    rw [List.mem_filter]
    simp [List.mem_range]
  refine ⟨?_, ?_, ?_⟩
  · intro v
    constructor
    · rintro ⟨s, hs, hvs⟩
      rw [hparts] at hs
      obtain ⟨r, -, rfl⟩ := List.mem_map.mp hs
      exact ((hmemgrp r v).mp hvs).1
    · intro hv
      refine ⟨(List.range n).filter
        (fun i => (cc_key_fold n p).1 i == (cc_key_fold n p).1 v), ?_, ?_⟩
      · rw [hparts]
        refine List.mem_map.mpr ⟨(cc_key_fold n p).1 v, ?_, rfl⟩
        rw [List.mem_filter]
        refine ⟨List.mem_range.mpr (hkeylt v hv), ?_⟩
        have hmem : (cc_key_fold n p).1 v ∈ (List.range n).map (cc_key_fold n p).1 :=
          List.mem_map.mpr ⟨v, List.mem_range.mpr hv, rfl⟩
        simpa using hmem
      · exact (hmemgrp _ v).mpr ⟨hv, rfl⟩
  · rw [hparts]
    have hnd : ((List.range n).filter
        (fun r => ((List.range n).map (cc_key_fold n p).1).contains r)).Pairwise (· ≠ ·) :=
      (List.nodup_range n).filter _
    refine List.Pairwise.map _ ?_ hnd
    intro r r2 hne v hvr hvr2
    have e1 := ((hmemgrp r v).mp hvr).2
    have e2 := ((hmemgrp r2 v).mp hvr2).2
    exact hne (e1 ▸ e2)
  · intro s hs
    rw [hparts] at hs
    obtain ⟨r, hr, rfl⟩ := List.mem_map.mp hs
    rw [List.mem_filter] at hr
    obtain ⟨hrn, hcont⟩ := hr
    have hrmem : r ∈ (List.range n).map (cc_key_fold n p).1 := by simpa using hcont
    obtain ⟨v0, hv0, hkv0⟩ := List.mem_map.mp hrmem
    have hv0n : v0 < n := List.mem_range.mp hv0
    refine ⟨r, List.mem_range.mp hrn, ?_, ?_⟩
    · rw [hpfin]
      have hfix := rootOf_isRoot (hrootfin v0 hv0n)
      rw [hkv0] at hfix
      exact hfix
    · intro v
      rw [hmemgrp r v]
      constructor
      · rintro ⟨hv, hkv⟩
        refine ⟨hv, ?_⟩
        rw [hpfin, ← hkv]
        exact hrootfin v hv
      · rintro ⟨hv, hvr⟩
        refine ⟨hv, ?_⟩
        rw [hpfin] at hvr
        exact rootOf_uniq (hrootfin v hv) hvr

/-! ## Claim theorems -/

/-- C1: for every graph state with a valid DSU and sketch-correct supernode
banks, the list returned by `boruvka_emulation` (and hence by
`connected_components`) is a partition of the vertex set `[0, N)`: the
returned sets cover exactly `[0, N)`, are pairwise disjoint (so every vertex
occurs in exactly one set), and each set consists of exactly the vertices
whose DSU root `get_parent(v)` is one fixed root of the final parent map. -/
theorem boruvka_components_partition
    (mergeFn : Supernode → Supernode → Supernode) (fuel : Nat) (g : Graph)
    (make_copy : Bool) (parts : List (List Nat))
    (Hm : ∀ s t, banksInRange g.numNodes s → banksInRange g.numNodes t →
      banksInRange g.numNodes (mergeFn s t))
    (Hinv : DSUinv g.numNodes g.parent)
    (Hb : ∀ i, banksInRange g.numNodes (g.supernodes i))
    (Hdone : (boruvka_emulation mergeFn fuel g make_copy).1 = .done parts) :
    (∀ v, (∃ s, s ∈ parts ∧ v ∈ s) ↔ v < g.numNodes) ∧
    List.Pairwise (fun s t => ∀ v, v ∈ s → v ∉ t) parts ∧
    (∀ s, s ∈ parts → ∃ r, r < g.numNodes ∧
      (boruvka_emulation mergeFn fuel g make_copy).2.1.parent r = r ∧
      ∀ v, v ∈ s ↔ (v < g.numNodes ∧
        RootOf (boruvka_emulation mergeFn fuel g make_copy).2.1.parent v r)) := by
  rcases hL : boruvkaLoop mergeFn g.numNodes make_copy g.copyInMem fuel (initState g)
    with bs | ⟨e, bs⟩ | bs
  · have hinv2 : DSUinv g.numNodes bs.parent := by
      refine loop_inv Hm fuel (initState g) ?_ ?_ bs (Or.inl hL)
      · exact Hinv
      · exact Hb
    simp only [boruvka_emulation, hL] at Hdone ⊢
    obtain ⟨A, B, C⟩ := cc_grouping_spec hinv2
    injection Hdone with hparts
    subst hparts
    exact ⟨A, B, C⟩
  · simp only [boruvka_emulation, hL] at Hdone
    cases Hdone
  · simp only [boruvka_emulation, hL] at Hdone
    cases Hdone

/-- Witness for C1 at the concrete two-vertex state `gTwo`. -/
theorem boruvka_components_partition_witness :
    (∀ v, (∃ s, s ∈ [[0], [1]] ∧ v ∈ s) ↔ v < gTwo.numNodes) ∧
    List.Pairwise (fun s t => ∀ v, v ∈ s → v ∉ t) ([[0], [1]] : List (List Nat)) ∧
    (∀ s, s ∈ ([[0], [1]] : List (List Nat)) → ∃ r, r < gTwo.numNodes ∧
      (boruvka_emulation constMerge 2 gTwo false).2.1.parent r = r ∧
      ∀ v, v ∈ s ↔ (v < gTwo.numNodes ∧
        RootOf (boruvka_emulation constMerge 2 gTwo false).2.1.parent v r)) := by
  refine boruvka_components_partition constMerge 2 gTwo false [[0], [1]]
    (fun s t hs ht => hs) ⟨fun x hx => hx, fun x hx => ⟨x, 0, rfl, rfl⟩⟩ ?_ (by decide)
  intro i k e r h
  simp only [gTwo, zeroSN, Except.ok.injEq, Prod.mk.injEq] at h
  obtain ⟨⟨h1, h2⟩, h3⟩ := h
  exact ⟨by decide, by decide⟩

/-- C2: in the single-threaded merge-planning pass, a sampled edge `(x, y)`
whose endpoint roots `a₀ = find(x)` and `b₀ = find(y)` differ is united by
size exactly as specified: with `(a, b) = (b₀, a₀)` when
`size[a₀] < size[b₀]` and `(a, b) = (a₀, b₀)` otherwise — in particular `a₀`
is kept as the root on a size tie, so the result is determined by the sample
outputs — the step sets `parent[b] = a`, adds both class sizes into
`size[a]`, appends `b` and the contents of `to_merge[b]` to `to_merge[a]`,
clears `to_merge[b]`, leaves every other merge list and the retry list
unchanged, and sets `modified`. -/
theorem plan_step_union_by_size (n : Nat) (query : Nat → QueryRes)
    (st : PlanState) (i x y : Nat)
    (Hq : query i = ((x, y), .GOOD))
    (Hinv : DSUinv n st.parent) (hx : x < n) (hy : y < n)
    (Hne : (get_parent n st.parent x).1 ≠
      (get_parent n (get_parent n st.parent x).2 y).1) :
    ∃ a b,
      (st.size (get_parent n st.parent x).1 <
        st.size (get_parent n (get_parent n st.parent x).2 y).1 →
        a = (get_parent n (get_parent n st.parent x).2 y).1 ∧
        b = (get_parent n st.parent x).1) ∧
      (¬ st.size (get_parent n st.parent x).1 <
        st.size (get_parent n (get_parent n st.parent x).2 y).1 →
        a = (get_parent n st.parent x).1 ∧
        b = (get_parent n (get_parent n st.parent x).2 y).1) ∧
      (st.size (get_parent n st.parent x).1 =
        st.size (get_parent n (get_parent n st.parent x).2 y).1 →
        a = (get_parent n st.parent x).1) ∧
      RootOf st.parent x (get_parent n st.parent x).1 ∧
      RootOf st.parent y (get_parent n (get_parent n st.parent x).2 y).1 ∧
      (planStep n query st i).parent =
        upd (get_parent n (get_parent n st.parent x).2 y).2 b a ∧
      (planStep n query st i).size =
        upd st.size a (st.size (get_parent n st.parent x).1 +
          st.size (get_parent n (get_parent n st.parent x).2 y).1) ∧
      (planStep n query st i).toMerge a = st.toMerge a ++ b :: st.toMerge b ∧
      (planStep n query st i).toMerge b = [] ∧
      (∀ c, c ≠ a → c ≠ b → (planStep n query st i).toMerge c = st.toMerge c) ∧
      (planStep n query st i).newReps = st.newReps ∧
      (planStep n query st i).modified = true := by
  obtain ⟨ga1, ga2, ga3⟩ := get_parent_sound Hinv hx
  obtain ⟨gb1, gb2, gb3⟩ := get_parent_sound ga3 hy
  have hroots : RootOf st.parent y (get_parent n (get_parent n st.parent x).2 y).1 :=
    rootOf_back Hinv ga2 hy gb1
  have hgood : (query i).2 = SampleSketchRet.GOOD := by rw [Hq]
  have hedge : (query i).1 = (x, y) := by rw [Hq]
  by_cases hsz : st.size (get_parent n st.parent x).1 <
      st.size (get_parent n (get_parent n st.parent x).2 y).1
  · refine ⟨(get_parent n (get_parent n st.parent x).2 y).1,
      (get_parent n st.parent x).1,
      fun _ => ⟨rfl, rfl⟩, fun h => absurd hsz h,
      fun he => absurd hsz (by rw [he]; exact lt_irrefl _), ga1, hroots, ?_⟩
    simp only [planStep, hgood, hedge, if_neg Hne, if_pos hsz]
    refine ⟨?_, ?_, ?_, ?_, ?_, ?_, ?_⟩
    · simp
    · simp [Nat.add_comm]
    · simp
    · simp [Ne.symm Hne]
    · intro c hca hcb
      simp [hca, hcb]
    · simp
    · simp
  · refine ⟨(get_parent n st.parent x).1,
      (get_parent n (get_parent n st.parent x).2 y).1,
      fun h => absurd h hsz, fun _ => ⟨rfl, rfl⟩, fun _ => rfl, ga1, hroots, ?_⟩
    simp only [planStep, hgood, hedge, if_neg Hne, if_neg hsz]
    refine ⟨?_, ?_, ?_, ?_, ?_, ?_, ?_⟩
    · simp
    · simp
    · simp
    · simp [Ne.symm Hne]
    · intro c hca hcb
      simp [hca, hcb]
    · simp
    · simp

/-- Witness for C2 at a concrete size tie: `n = 4`, identity DSU, sampled
edge `(2, 3)`; the tie keeps `a = 2` as the root. -/
theorem plan_step_union_by_size_witness :
    ∃ a b,
      ((fun _ => 1 : Nat → Nat) (get_parent 4 (fun j => j) 2).1 <
        (fun _ => 1 : Nat → Nat) (get_parent 4 (get_parent 4 (fun j => j) 2).2 3).1 →
        a = (get_parent 4 (get_parent 4 (fun j => j) 2).2 3).1 ∧
        b = (get_parent 4 (fun j => j) 2).1) ∧
      (¬ (fun _ => 1 : Nat → Nat) (get_parent 4 (fun j => j) 2).1 <
        (fun _ => 1 : Nat → Nat) (get_parent 4 (get_parent 4 (fun j => j) 2).2 3).1 →
        a = (get_parent 4 (fun j => j) 2).1 ∧
        b = (get_parent 4 (get_parent 4 (fun j => j) 2).2 3).1) ∧
      ((fun _ => 1 : Nat → Nat) (get_parent 4 (fun j => j) 2).1 =
        (fun _ => 1 : Nat → Nat) (get_parent 4 (get_parent 4 (fun j => j) 2).2 3).1 →
        a = (get_parent 4 (fun j => j) 2).1) ∧
      RootOf (fun j => j) 2 (get_parent 4 (fun j => j) 2).1 ∧
      RootOf (fun j => j) 3 (get_parent 4 (get_parent 4 (fun j => j) 2).2 3).1 ∧
      (planStep 4 (fun _ => ((2, 3), .GOOD))
        ⟨fun j => j, fun _ => 1, fun _ => [], [], false⟩ 0).parent =
        upd (get_parent 4 (get_parent 4 (fun j => j) 2).2 3).2 b a ∧
      (planStep 4 (fun _ => ((2, 3), .GOOD))
        ⟨fun j => j, fun _ => 1, fun _ => [], [], false⟩ 0).size =
        upd (fun _ => 1) a ((fun _ => 1 : Nat → Nat) (get_parent 4 (fun j => j) 2).1 +
          (fun _ => 1 : Nat → Nat) (get_parent 4 (get_parent 4 (fun j => j) 2).2 3).1) ∧
      (planStep 4 (fun _ => ((2, 3), .GOOD))
        ⟨fun j => j, fun _ => 1, fun _ => [], [], false⟩ 0).toMerge a =
        (fun _ => ([] : List Nat)) a ++ b :: (fun _ => ([] : List Nat)) b ∧
      (planStep 4 (fun _ => ((2, 3), .GOOD))
        ⟨fun j => j, fun _ => 1, fun _ => [], [], false⟩ 0).toMerge b = [] ∧
      (∀ c, c ≠ a → c ≠ b →
        (planStep 4 (fun _ => ((2, 3), .GOOD))
          ⟨fun j => j, fun _ => 1, fun _ => [], [], false⟩ 0).toMerge c =
          (fun _ => ([] : List Nat)) c) ∧
      (planStep 4 (fun _ => ((2, 3), .GOOD))
        ⟨fun j => j, fun _ => 1, fun _ => [], [], false⟩ 0).newReps = [] ∧
      (planStep 4 (fun _ => ((2, 3), .GOOD))
        ⟨fun j => j, fun _ => 1, fun _ => [], [], false⟩ 0).modified = true :=
  plan_step_union_by_size 4 (fun _ => ((2, 3), .GOOD))
    ⟨fun j => j, fun _ => 1, fun _ => [], [], false⟩ 0 2 3 rfl
    ⟨fun x hx => hx, fun x hx => ⟨x, 0, rfl, rfl⟩⟩ (by decide) (by decide) (by decide)

/-- C3 counterexample: with two vertices, representative 0 sampling the edge
`(0, 1)` and representative 1 FAILing, the planning pass merges root 1 into
root 0 and the retry filter keeps 1 (its own `to_merge[1]` is empty); the
new representative list is `[1, 0]` where `parent[1] = 0 ≠ 1`, even though
1's root 0 acquired pending merges in the same round.  This refutes the
claim that every vertex in the new representative list is its own DSU
parent and that such a retry is removed. -/
theorem plan_retry_not_root_counterexample :
    1 ∈ (supernodes_to_merge 2
      (fun i => if i = 0 then ((0, 1), .GOOD) else ((0, 0), .FAIL))
      [0, 1] (fun j => j) (fun _ => 1)).newReps ∧
    (supernodes_to_merge 2
      (fun i => if i = 0 then ((0, 1), .GOOD) else ((0, 0), .FAIL))
      [0, 1] (fun j => j) (fun _ => 1)).parent 1 = 0 ∧
    (supernodes_to_merge 2
      (fun i => if i = 0 then ((0, 1), .GOOD) else ((0, 0), .FAIL))
      [0, 1] (fun j => j) (fun _ => 1)).toMerge 0 ≠ [] ∧
    ¬(∀ r ∈ (supernodes_to_merge 2
      (fun i => if i = 0 then ((0, 1), .GOOD) else ((0, 0), .FAIL))
      [0, 1] (fun j => j) (fun _ => 1)).newReps,
      (supernodes_to_merge 2
        (fun i => if i = 0 then ((0, 1), .GOOD) else ((0, 0), .FAIL))
        [0, 1] (fun j => j) (fun _ => 1)).parent r = r) := by
  refine ⟨by decide, by decide, by decide, ?_⟩
  intro h
  have := h 1 (by decide)
  exact absurd this (by decide)

/-- C3 amended: after the planning and retry-filter passes of a round,
every vertex with pending merges (`to_merge[a] ≠ ∅`) is its own DSU parent,
and every such vertex `< n` appears in the new representative list; the
retry filter drops a queued FAIL-retry exactly when that vertex's own
`to_merge` list is nonempty, so a retry that was absorbed as a merge child
in the same round stays in the list although it is no longer its own
parent. -/
theorem plan_new_reps_amended {n : Nat} {query : Nat → QueryRes}
    {reps : List Nat} {parent size : Nat → Nat}
    (hq : ∀ i, (query i).2 = SampleSketchRet.GOOD →
      (query i).1.1 < n ∧ (query i).1.2 < n)
    (h1 : DSUinv n parent) :
    (∀ a, (supernodes_to_merge n query reps parent size).toMerge a ≠ [] →
      (supernodes_to_merge n query reps parent size).parent a = a) ∧
    (∀ a, a < n → (supernodes_to_merge n query reps parent size).toMerge a ≠ [] →
      a ∈ (supernodes_to_merge n query reps parent size).newReps) := by
  obtain ⟨-, h2, h3⟩ := supernodes_to_merge_inv hq h1
  exact ⟨h2, h3⟩

/-- Witness for the amended C3 on the concrete two-vertex round of the
counterexample: the merge destination 0 is its own parent and is listed. -/
theorem plan_new_reps_amended_witness :
    ((∀ a, (supernodes_to_merge 2
        (fun i => if i = 0 then ((0, 1), .GOOD) else ((0, 0), .FAIL))
        [0, 1] (fun j => j) (fun _ => 1)).toMerge a ≠ [] →
      (supernodes_to_merge 2
        (fun i => if i = 0 then ((0, 1), .GOOD) else ((0, 0), .FAIL))
        [0, 1] (fun j => j) (fun _ => 1)).parent a = a) ∧
    (∀ a, a < 2 → (supernodes_to_merge 2
        (fun i => if i = 0 then ((0, 1), .GOOD) else ((0, 0), .FAIL))
        [0, 1] (fun j => j) (fun _ => 1)).toMerge a ≠ [] →
      a ∈ (supernodes_to_merge 2
        (fun i => if i = 0 then ((0, 1), .GOOD) else ((0, 0), .FAIL))
        [0, 1] (fun j => j) (fun _ => 1)).newReps)) ∧
    (supernodes_to_merge 2
      (fun i => if i = 0 then ((0, 1), .GOOD) else ((0, 0), .FAIL))
      [0, 1] (fun j => j) (fun _ => 1)).toMerge 0 = [1] := by
  refine ⟨plan_new_reps_amended ?_ ⟨fun x hx => hx, fun x hx => ⟨x, 0, rfl, rfl⟩⟩, by decide⟩
  intro i h
  by_cases hi : i = 0
  · subst hi
    exact ⟨by decide, by decide⟩
  · simp [hi] at h

/-! ## Facade-level helper lemmas -/

/-- Vertex count is unchanged by the driver. -/
theorem boruvka_numNodes (mergeFn : Supernode → Supernode → Supernode)
    (fuel : Nat) (g : Graph) (mc : Bool) :
    (boruvka_emulation mergeFn fuel g mc).2.1.numNodes = g.numNodes := by
  rcases hL : boruvkaLoop mergeFn g.numNodes mc g.copyInMem fuel (initState g)
    with bs | ⟨e, bs⟩ | bs <;> simp [boruvka_emulation, hL]

/-- The driver locks ingest and never releases it itself. -/
theorem boruvka_locks (mergeFn : Supernode → Supernode → Supernode)
    (fuel : Nat) (g : Graph) (mc : Bool) :
    (boruvka_emulation mergeFn fuel g mc).2.1.updateLocked = true := by
  rcases hL : boruvkaLoop mergeFn g.numNodes mc g.copyInMem fuel (initState g)
    with bs | ⟨e, bs⟩ | bs <;> simp [boruvka_emulation, hL]

/-- The cleanup flag is set on both real exits of the driver. -/
theorem boruvka_cleanupRan (mergeFn : Supernode → Supernode → Supernode)
    (fuel : Nat) (g : Graph) (mc : Bool)
    (Hout : (boruvka_emulation mergeFn fuel g mc).1.isFuelOut = false) :
    (boruvka_emulation mergeFn fuel g mc).2.2.cleanupRan = true := by
  rcases hL : boruvkaLoop mergeFn g.numNodes mc g.copyInMem fuel (initState g)
    with bs | ⟨e, bs⟩ | bs
  · simp [boruvka_emulation, hL]
  · simp [boruvka_emulation, hL]
  · simp [boruvka_emulation, hL, BoruvkaOutcome.isFuelOut] at Hout

/-- The non-resumable query path is exactly the in-place driver run. -/
theorem cc_nonresumable_eq (mergeFn : Supernode → Supernode → Supernode)
    (fuel : Nat) (g : Graph) :
    connected_components mergeFn fuel g false =
      boruvka_emulation mergeFn fuel { g with workersPaused := true } false := rfl

/-- The resumable query path: driver run with copies, then the reset loop,
unlock and unpause. -/
theorem cc_resumable_eq (mergeFn : Supernode → Supernode → Supernode)
    (fuel : Nat) (g : Graph) :
    connected_components mergeFn fuel g true =
      ((boruvka_emulation mergeFn fuel { g with workersPaused := true } true).1,
       { (List.range
            (boruvka_emulation mergeFn fuel
              { g with workersPaused := true } true).2.1.numNodes).foldl
           resetStep
           (boruvka_emulation mergeFn fuel { g with workersPaused := true } true).2.1 with
         updateLocked := false, workersPaused := false },
       (boruvka_emulation mergeFn fuel { g with workersPaused := true } true).2.2) := rfl

/-- Cells not visited by the reset loop are unchanged. -/
theorem reset_fold_untouched :
    ∀ (l : List Nat) (h : Graph) {j : Nat}, j ∉ l →
    (l.foldl resetStep h).parent j = h.parent j ∧
    (l.foldl resetStep h).size j = h.size j ∧
    (l.foldl resetStep h).supernodes j = h.supernodes j := by
  intro l
  induction l with
  | nil => intro h j hj; exact ⟨rfl, rfl, rfl⟩
  | cons i rest ih =>
    intro h j hj
    have hji : j ≠ i := fun hji => hj (hji ▸ List.mem_cons_self i rest)
    have hjr : j ∉ rest := fun hm => hj (List.mem_cons_of_mem _ hm)
    simp only [List.foldl_cons]
    obtain ⟨q1, q2, q3⟩ := ih (resetStep h i) hjr
    refine ⟨?_, ?_, ?_⟩
    · rw [q1]; exact upd_ne _ _ hji
    · rw [q2]; exact upd_ne _ _ hji
    · rw [q3]; exact upd_ne _ _ hji

/-- Every cell visited by the reset loop ends re-initialized: identity
parent, size 1, query cursor 0. -/
theorem reset_fold_mem :
    ∀ (l : List Nat) (h : Graph) {j : Nat}, j ∈ l →
    (l.foldl resetStep h).parent j = j ∧
    (l.foldl resetStep h).size j = 1 ∧
    ((l.foldl resetStep h).supernodes j).idx = 0 := by
  intro l
  induction l with
  | nil => intro h j hj; exact absurd hj (List.not_mem_nil j)
  | cons i rest ih =>
    intro h j hj
    simp only [List.foldl_cons]
    by_cases hjr : j ∈ rest
    · exact ih (resetStep h i) hjr
    · have hji : j = i := by
        rcases List.mem_cons.mp hj with h5 | h5
        · exact h5
        · exact absurd h5 hjr
      subst hji
      obtain ⟨q1, q2, q3⟩ := reset_fold_untouched rest (resetStep h j) hjr
      refine ⟨?_, ?_, ?_⟩
      · rw [q1]; exact upd_self _ _ _
      · rw [q2]; exact upd_self _ _ _
      · rw [q3]
        simp [resetStep, upd_self, Supernode.reset_query_state]

/-- The reset loop leaves the vertex count alone. -/
theorem reset_fold_numNodes :
    ∀ (l : List Nat) (h : Graph), (l.foldl resetStep h).numNodes = h.numNodes := by
  intro l
  induction l with
  | nil => intro h; rfl
  | cons i rest ih =>
    intro h
    simp only [List.foldl_cons]
    exact ih (resetStep h i)

/-- C6: the snapshot-restore cleanup (`cleanup_copy`) runs on every exit
path from `boruvka_emulation`: both when it returns a partition normally and
when it exits by rethrowing an exception.  (The `fuelOut` hypothesis only
excludes the artifact of embedding the unbounded do-while loop with fuel.) -/
theorem boruvka_cleanup_every_exit
    (mergeFn : Supernode → Supernode → Supernode) (fuel : Nat) (g : Graph)
    (make_copy : Bool)
    (Hout : (boruvka_emulation mergeFn fuel g make_copy).1.isFuelOut = false) :
    (boruvka_emulation mergeFn fuel g make_copy).2.2.cleanupRan = true :=
  boruvka_cleanupRan mergeFn fuel g make_copy Hout

/-- Witness for C6: the cleanup flag is set both on a normal exit (`gOne`)
and on an exceptional exit (`gErr`). -/
theorem boruvka_cleanup_every_exit_witness :
    (boruvka_emulation constMerge 2 gOne true).2.2.cleanupRan = true ∧
    (boruvka_emulation constMerge 2 gErr true).2.2.cleanupRan = true :=
  ⟨boruvka_cleanup_every_exit constMerge 2 gOne true (by decide),
   boruvka_cleanup_every_exit constMerge 2 gErr true (by decide)⟩

/-- C5 counterexample: on a resumable query whose sketch raises
`NoGoodBucket`, the exception is indeed rethrown, but the graph is not
closed: `update_locked` is `false` after the call and a subsequent
`batch_update` succeeds instead of throwing `UpdateLockedException`. -/
theorem resumable_exception_unlocks_counterexample :
    (connected_components constMerge 2 gErr true).1 = .raised .NoGoodBucketErr ∧
    (connected_components constMerge 2 gErr true).2.1.updateLocked = false ∧
    (batch_update constApply (connected_components constMerge 2 gErr true).2.1
      0 []).isOk = true := by
  refine ⟨by decide, by decide, by decide⟩

/-- C5 amended: if a worker raises during a resumable query, the exception
is rethrown to the caller of `connected_components` only after the
snapshots have been restored (the cleanup ran) — but the graph is then
re-opened, not closed: the ingest lock is released, the workers are
unpaused, and every subsequent update attempt succeeds. -/
theorem resumable_exception_restores_then_unlocks
    (mergeFn : Supernode → Supernode → Supernode) (fuel : Nat) (g : Graph)
    (e : GraphError)
    (Hr : (connected_components mergeFn fuel g true).1 = .raised e) :
    (connected_components mergeFn fuel g true).2.2.cleanupRan = true ∧
    (connected_components mergeFn fuel g true).2.1.updateLocked = false ∧
    (connected_components mergeFn fuel g true).2.1.workersPaused = false ∧
    ∀ applyFn src edges,
      (batch_update applyFn (connected_components mergeFn fuel g true).2.1
        src edges).isOk = true := by
  have hout : (boruvka_emulation mergeFn fuel { g with workersPaused := true }
      true).1.isFuelOut = false := by
    rw [cc_resumable_eq] at Hr
    rw [Hr]
    rfl
  have hclean := boruvka_cleanupRan mergeFn fuel
    { g with workersPaused := true } true hout
  rw [cc_resumable_eq]
  refine ⟨hclean, rfl, rfl, ?_⟩
  intro applyFn src edges
  rfl

/-- Witness for the amended C5 at the concrete erroring state `gErr`. -/
theorem resumable_exception_restores_then_unlocks_witness :
    (connected_components constMerge 2 gErr true).2.2.cleanupRan = true ∧
    (connected_components constMerge 2 gErr true).2.1.updateLocked = false ∧
    (connected_components constMerge 2 gErr true).2.1.workersPaused = false ∧
    ∀ applyFn src edges,
      (batch_update applyFn (connected_components constMerge 2 gErr true).2.1
        src edges).isOk = true :=
  resumable_exception_restores_then_unlocks constMerge 2 gErr
    .NoGoodBucketErr (by decide)

/-- C9 counterexample: the ingest lock taken by a non-resumable query is not
held for the remaining lifetime of the graph — a later resumable
`connected_components` call releases it, after which `batch_update`
succeeds again. -/
theorem lock_released_by_resumable_query_counterexample :
    (connected_components constMerge 2 gOne false).2.1.updateLocked = true ∧
    (connected_components constMerge 2
      (connected_components constMerge 2 gOne false).2.1 true).2.1.updateLocked
      = false ∧
    (batch_update constApply
      (connected_components constMerge 2
        (connected_components constMerge 2 gOne false).2.1 true).2.1
      0 []).isOk = true := by
  refine ⟨by decide, by decide, by decide⟩

/-- C9 amended: after a non-resumable query returns, `update_locked` is true
and every later `batch_update` throws `UpdateLockedException` (leaving the
state unchanged), until — and only until — a later resumable
`connected_components` call resets the lock. -/
theorem nonresumable_keeps_lock
    (mergeFn : Supernode → Supernode → Supernode) (fuel : Nat) (g : Graph) :
    (connected_components mergeFn fuel g false).2.1.updateLocked = true ∧
    ∀ applyFn src edges,
      batch_update applyFn (connected_components mergeFn fuel g false).2.1
        src edges = .error .mk := by
  have h : (connected_components mergeFn fuel g false).2.1.updateLocked = true := by
    rw [cc_nonresumable_eq]
    exact boruvka_locks mergeFn fuel { g with workersPaused := true } false
  refine ⟨h, ?_⟩
  intro applyFn src edges
  simp [batch_update, h]

/-- C10: after every resumable `connected_components` call — returning a
partition or rethrowing an exception — the engine is re-initialized for
further ingest: for every vertex `i < n`, `parent[i] = i`, `size[i] = 1`
and the supernode's query cursor is rewound to 0; the ingest lock is
released and the workers are unpaused. -/
theorem resumable_resets_state
    (mergeFn : Supernode → Supernode → Supernode) (fuel : Nat) (g : Graph)
    (Hout : (connected_components mergeFn fuel g true).1.isFuelOut = false) :
    (∀ i, i < g.numNodes →
      (connected_components mergeFn fuel g true).2.1.parent i = i ∧
      (connected_components mergeFn fuel g true).2.1.size i = 1 ∧
      ((connected_components mergeFn fuel g true).2.1.supernodes i).idx = 0) ∧
    (connected_components mergeFn fuel g true).2.1.updateLocked = false ∧
    (connected_components mergeFn fuel g true).2.1.workersPaused = false := by
  rw [cc_resumable_eq]
  refine ⟨?_, rfl, rfl⟩
  intro i hi
  have hn : (boruvka_emulation mergeFn fuel { g with workersPaused := true }
      true).2.1.numNodes = g.numNodes :=
    boruvka_numNodes mergeFn fuel { g with workersPaused := true } true
  have hmem : i ∈ List.range (boruvka_emulation mergeFn fuel
      { g with workersPaused := true } true).2.1.numNodes := by
    rw [hn]
    exact List.mem_range.mpr hi
  exact reset_fold_mem _ _ hmem

/-- Witness for C10 at the concrete erroring state `gErr` (an exceptional
resumable exit). -/
theorem resumable_resets_state_witness :
    (∀ i, i < gErr.numNodes →
      (connected_components constMerge 2 gErr true).2.1.parent i = i ∧
      (connected_components constMerge 2 gErr true).2.1.size i = 1 ∧
      ((connected_components constMerge 2 gErr true).2.1.supernodes i).idx = 0) ∧
    (connected_components constMerge 2 gErr true).2.1.updateLocked = false ∧
    (connected_components constMerge 2 gErr true).2.1.workersPaused = false :=
  resumable_resets_state constMerge 2 gErr (by decide)

/-- The merge loop never creates clones when `make_copy` is off. -/
theorem merge_copySns_false {mergeFn : Supernode → Supernode → Supernode}
    {cim : Bool} {toMerge : Nat → List Nat} :
    ∀ (l : List Nat) (acc : (Nat → Option Supernode) × (Nat → Supernode)),
    (l.foldl (mergeStep mergeFn cim false toMerge) acc).1 = acc.1 := by
  intro l
  induction l with
  | nil => intro acc; rfl
  | cons a rest ih =>
    intro acc
    simp only [List.foldl_cons]
    rw [ih]
    unfold mergeStep
    simp

/-- With the in-memory backend on the copying round, the merge loop creates
a clone exactly at every destination it visits. -/
theorem merge_copySns_true {mergeFn : Supernode → Supernode → Supernode}
    {toMerge : Nat → List Nat} :
    ∀ (l : List Nat) (acc : (Nat → Option Supernode) × (Nat → Supernode)) (j : Nat),
    (((l.foldl (mergeStep mergeFn true true toMerge) acc).1 j).isSome = true ↔
      (j ∈ l ∨ ((acc.1 j).isSome = true))) := by
  intro l
  induction l with
  | nil =>
    intro acc j
    simp
  | cons a rest ih =>
    intro acc j
    simp only [List.foldl_cons]
    rw [ih]
    unfold mergeStep
    by_cases hj : j = a
    · subst hj
      simp [upd_self]
    · simp only [Bool.and_self, if_pos]
      rw [upd_ne _ _ hj]
      constructor
      · rintro (h | h)
        · exact Or.inl (List.mem_cons_of_mem _ h)
        · exact Or.inr h
      · rintro (h | h)
        · rcases List.mem_cons.mp h with h5 | h5
          · exact absurd h5 hj
          · exact Or.inl h5
        · exact Or.inr h

/-- After the first round, a driver round never touches the snapshot: the
backed-up id list and the clone array pass through unchanged, and
`first_round` stays cleared. -/
theorem round_keeps_snapshot {mergeFn : Supernode → Supernode → Supernode}
    {n : Nat} {mc cim : Bool} {bs : BoruvkaState} (h : bs.firstRound = false) :
    (boruvkaRound mergeFn n mc cim bs).2.backedUp = bs.backedUp ∧
    (boruvkaRound mergeFn n mc cim bs).2.copySns = bs.copySns ∧
    (boruvkaRound mergeFn n mc cim bs).2.firstRound = false := by
  unfold boruvkaRound
  rcases herr : (sample_supernodes bs.sns bs.reps).1 with _ | e
  · simp only [herr]
    refine ⟨?_, ?_, ?_⟩
    · simp [h]
    · show (merge_supernodes mergeFn cim bs.copySns
        (sample_supernodes bs.sns bs.reps).2.2 _ _ (bs.firstRound && mc)).1 = bs.copySns
      rw [h]
      simp only [Bool.false_and]
      exact merge_copySns_false _ _
    · simp
  · simp only [herr]
    refine ⟨?_, ?_, ?_⟩ <;> simp [h]

/-- The rest of the driver loop keeps the snapshot of the first round: from
any state with `first_round` cleared, the exit state has the same backed-up
ids and clone array. -/
theorem loop_keeps_snapshot {mergeFn : Supernode → Supernode → Supernode}
    {n : Nat} {mc cim : Bool} :
    ∀ (fuel : Nat) (bs bs2 : BoruvkaState), bs.firstRound = false →
    (boruvkaLoop mergeFn n mc cim fuel bs = .finished bs2 ∨
     ∃ e, boruvkaLoop mergeFn n mc cim fuel bs = .raised e bs2) →
    bs2.backedUp = bs.backedUp ∧ bs2.copySns = bs.copySns := by
  intro fuel
  induction fuel with
  | zero =>
    intro bs bs2 hfr h
    rcases h with h | ⟨e, h⟩ <;> simp [boruvkaLoop] at h
  | succ fuel ih =>
    intro bs bs2 hfr h
    obtain ⟨k1, k2, k3⟩ := @round_keeps_snapshot mergeFn n mc cim bs hfr
    rw [boruvkaLoop_succ] at h
    rcases hr : boruvkaRound mergeFn n mc cim bs with ⟨oe, bsr⟩
    rw [hr] at h k1 k2 k3
    rcases oe with _ | e2
    · by_cases hmod : bsr.modified
      · simp only [hmod, if_pos] at h
        obtain ⟨m1, m2⟩ := ih bsr bs2 k3 h
        exact ⟨by rw [m1, k1], by rw [m2, k2]⟩
      · simp only [hmod, Bool.false_eq_true, if_false] at h
        rcases h with h | ⟨e, h⟩
        · cases h; exact ⟨k1, k2⟩
        · cases h
    · rcases h with h | ⟨e, h⟩
      · cases h
      · cases h; exact ⟨k1, k2⟩

/-- A round that completes without an exception clears `first_round`. -/
theorem round_none_firstRound {mergeFn : Supernode → Supernode → Supernode}
    {n : Nat} {mc cim : Bool} {bs : BoruvkaState} :
    (boruvkaRound mergeFn n mc cim bs).1 = none →
    (boruvkaRound mergeFn n mc cim bs).2.firstRound = false := by
  unfold boruvkaRound
  rcases herr : (sample_supernodes bs.sns bs.reps).1 with _ | e <;> simp [herr]

/-- On the first round of a resumable run, a completing round records
`backed_up = reps` — the representative list the planning pass just
produced. -/
theorem round_first_backedUp {mergeFn : Supernode → Supernode → Supernode}
    {n : Nat} {cim : Bool} {bs : BoruvkaState} (hfr : bs.firstRound = true)
    (hok : (boruvkaRound mergeFn n true cim bs).1 = none) :
    (boruvkaRound mergeFn n true cim bs).2.backedUp =
      (supernodes_to_merge n (sample_supernodes bs.sns bs.reps).2.1 bs.reps
        bs.parent bs.size).newReps := by
  unfold boruvkaRound at hok ⊢
  rcases herr : (sample_supernodes bs.sns bs.reps).1 with _ | e
  · simp [herr, hfr]
  · simp [herr] at hok

/-- A round that exits by exception leaves the snapshot alone. -/
theorem round_raised_keeps {mergeFn : Supernode → Supernode → Supernode}
    {n : Nat} {mc cim : Bool} {bs : BoruvkaState} {e : GraphError}
    (he : (boruvkaRound mergeFn n mc cim bs).1 = some e) :
    (boruvkaRound mergeFn n mc cim bs).2.backedUp = bs.backedUp ∧
    (boruvkaRound mergeFn n mc cim bs).2.copySns = bs.copySns := by
  unfold boruvkaRound at he ⊢
  rcases herr : (sample_supernodes bs.sns bs.reps).1 with _ | e2
  · simp [herr] at he
  · simp [herr]

/-- On the first resumable round with the in-memory backend, a completing
round holds a clone exactly for every id it backed up (on top of any
pre-existing clones). -/
theorem round_first_clones {mergeFn : Supernode → Supernode → Supernode}
    {n : Nat} {bs : BoruvkaState} (hfr : bs.firstRound = true)
    (hok : (boruvkaRound mergeFn n true true bs).1 = none) :
    ∀ j, (((boruvkaRound mergeFn n true true bs).2.copySns j).isSome = true ↔
      (j ∈ (boruvkaRound mergeFn n true true bs).2.backedUp ∨
        ((bs.copySns j).isSome = true))) := by
  unfold boruvkaRound at hok ⊢
  rcases herr : (sample_supernodes bs.sns bs.reps).1 with _ | e
  · intro j
    simp only [herr, hfr, Bool.and_self, eq_self_iff_true, if_true]
    unfold merge_supernodes
    exact merge_copySns_true _ _ j
  · simp [herr] at hok

/-- The exit state of the whole loop carries exactly the snapshot data the
first round produced. -/
theorem loop_exit_snapshot {mergeFn : Supernode → Supernode → Supernode}
    {n : Nat} {mc cim : Bool} (f : Nat) (bs0 bs2 : BoruvkaState)
    (h : boruvkaLoop mergeFn n mc cim (f + 1) bs0 = .finished bs2 ∨
         ∃ e, boruvkaLoop mergeFn n mc cim (f + 1) bs0 = .raised e bs2) :
    bs2.backedUp = (boruvkaRound mergeFn n mc cim bs0).2.backedUp ∧
    bs2.copySns = (boruvkaRound mergeFn n mc cim bs0).2.copySns := by
  have hfr1 := @round_none_firstRound mergeFn n mc cim bs0
  rw [boruvkaLoop_succ] at h
  rcases hr : boruvkaRound mergeFn n mc cim bs0 with ⟨oe, bs1⟩
  rw [hr] at h hfr1
  rcases oe with _ | e2
  · dsimp only at h hfr1 ⊢
    by_cases hmod : bs1.modified
    · simp only [hmod, if_pos] at h
      exact loop_keeps_snapshot f bs1 bs2 (hfr1 rfl) h
    · simp only [hmod, Bool.false_eq_true, if_false] at h
      rcases h with h | ⟨e, h⟩
      · cases h; exact ⟨rfl, rfl⟩
      · cases h
  · dsimp only at h ⊢
    rcases h with h | ⟨e, h⟩
    · cases h
    · cases h; exact ⟨rfl, rfl⟩

/-- Membership in the cloned-id trace list. -/
theorem mem_clonedOf {n : Nat} {cs : Nat → Option Supernode} {i : Nat} :
    i ∈ clonedOf n cs ↔ (i < n ∧ (cs i).isSome = true) := by
  simp [clonedOf, List.mem_filter, List.mem_range]

/-- C4 counterexample: on the one-vertex graph whose sketch reports `ZERO`,
the resumable driver run returns normally but snapshots nothing
(`backed_up = []`), while the representative set at the start of the query
is `[0]`: the snapshotted set is not the start-of-query representative set
(it is the set produced by the first round's planning pass, which dropped
vertex 0 as a closed component before the snapshot was taken). -/
theorem snapshot_set_counterexample :
    (boruvka_emulation constMerge 2 gOne true).1 = .done [[0]] ∧
    (boruvka_emulation constMerge 2 gOne true).2.2.backedUp = [] ∧
    List.range gOne.numNodes = [0] ∧
    (boruvka_emulation constMerge 2 gOne true).2.2.backedUp ≠
      List.range gOne.numNodes := by
  refine ⟨by decide, by decide, by decide, by decide⟩

/-- C4 amended: on a resumable run, the snapshotted id set is exactly the
representative list produced by the *first round's planning pass* (not the
start-of-query representative set), captured before the first merge; it is
never expanded in later rounds, restoration is driven by exactly that same
ordered list, and with the in-memory backend the clones cover exactly those
ids.  (A first round that exits by a sketch exception snapshots nothing.) -/
theorem snapshot_after_first_plan
    (mergeFn : Supernode → Supernode → Supernode) (fuel : Nat) (g : Graph)
    (Hout : (boruvka_emulation mergeFn fuel g true).1.isFuelOut = false) :
    (boruvka_emulation mergeFn fuel g true).2.2.backedUp =
      (boruvkaRound mergeFn g.numNodes true g.copyInMem (initState g)).2.backedUp ∧
    (boruvka_emulation mergeFn fuel g true).2.2.restoredIds =
      (boruvka_emulation mergeFn fuel g true).2.2.backedUp ∧
    ((boruvkaRound mergeFn g.numNodes true g.copyInMem (initState g)).1 = none →
      (boruvkaRound mergeFn g.numNodes true g.copyInMem (initState g)).2.backedUp =
        (supernodes_to_merge g.numNodes
          (sample_supernodes g.supernodes (List.range g.numNodes)).2.1
          (List.range g.numNodes) g.parent (fun _ => 1)).newReps) ∧
    (g.copyInMem = true →
      ∀ i, i ∈ (boruvka_emulation mergeFn fuel g true).2.2.clonedIds ↔
        (i < g.numNodes ∧
          i ∈ (boruvka_emulation mergeFn fuel g true).2.2.backedUp)) := by
  have hplan : (boruvkaRound mergeFn g.numNodes true g.copyInMem (initState g)).1 = none →
      (boruvkaRound mergeFn g.numNodes true g.copyInMem (initState g)).2.backedUp =
        (supernodes_to_merge g.numNodes
          (sample_supernodes g.supernodes (List.range g.numNodes)).2.1
          (List.range g.numNodes) g.parent (fun _ => 1)).newReps := by
    intro hok
    exact round_first_backedUp rfl hok
  cases fuel with
  | zero =>
    simp [boruvka_emulation, boruvkaLoop, BoruvkaOutcome.isFuelOut] at Hout
  | succ f =>
    rcases hL : boruvkaLoop mergeFn g.numNodes true g.copyInMem (f + 1) (initState g)
      with bs2 | ⟨e, bs2⟩ | bs2
    · obtain ⟨hB, hC⟩ := loop_exit_snapshot f (initState g) bs2 (Or.inl hL)
      simp only [boruvka_emulation, hL]
      refine ⟨hB, by simp, hplan, ?_⟩
      intro hcim i
      rw [mem_clonedOf, hC, hB]
      rw [hcim] at hplan ⊢
      rcases hoe : (boruvkaRound mergeFn g.numNodes true true (initState g)).1
        with _ | e2
      · have := @round_first_clones mergeFn g.numNodes (initState g) rfl hoe i
        rw [this]
        have hnone : ((initState g).copySns i).isSome = false := rfl
        simp [hnone]
      · obtain ⟨k1, k2⟩ := round_raised_keeps hoe
        rw [k1, k2]
        have hnone : ((initState g).copySns i).isSome = false := rfl
        have hemp : (initState g).backedUp = [] := rfl
        rw [hemp]
        simp [hnone]
    · obtain ⟨hB, hC⟩ := loop_exit_snapshot f (initState g) bs2 (Or.inr ⟨e, hL⟩)
      simp only [boruvka_emulation, hL]
      refine ⟨hB, by simp, hplan, ?_⟩
      intro hcim i
      rw [mem_clonedOf, hC, hB]
      rw [hcim] at hplan ⊢
      rcases hoe : (boruvkaRound mergeFn g.numNodes true true (initState g)).1
        with _ | e2
      · have := @round_first_clones mergeFn g.numNodes (initState g) rfl hoe i
        rw [this]
        have hnone : ((initState g).copySns i).isSome = false := rfl
        simp [hnone]
      · obtain ⟨k1, k2⟩ := round_raised_keeps hoe
        rw [k1, k2]
        have hnone : ((initState g).copySns i).isSome = false := rfl
        have hemp : (initState g).backedUp = [] := rfl
        rw [hemp]
        simp [hnone]
    · simp [boruvka_emulation, hL, BoruvkaOutcome.isFuelOut] at Hout

/-- Witness for the amended C4: the one-vertex all-ZERO run backs up the
empty first-round representative list, restores exactly it, and holds no
clones. -/
theorem snapshot_after_first_plan_witness :
    (boruvka_emulation constMerge 2 gOne true).2.2.backedUp =
      (boruvkaRound constMerge gOne.numNodes true gOne.copyInMem
        (initState gOne)).2.backedUp ∧
    (boruvka_emulation constMerge 2 gOne true).2.2.restoredIds =
      (boruvka_emulation constMerge 2 gOne true).2.2.backedUp ∧
    ((boruvkaRound constMerge gOne.numNodes true gOne.copyInMem
        (initState gOne)).1 = none →
      (boruvkaRound constMerge gOne.numNodes true gOne.copyInMem
        (initState gOne)).2.backedUp =
        (supernodes_to_merge gOne.numNodes
          (sample_supernodes gOne.supernodes (List.range gOne.numNodes)).2.1
          (List.range gOne.numNodes) gOne.parent (fun _ => 1)).newReps) ∧
    (gOne.copyInMem = true →
      ∀ i, i ∈ (boruvka_emulation constMerge 2 gOne true).2.2.clonedIds ↔
        (i < gOne.numNodes ∧
          i ∈ (boruvka_emulation constMerge 2 gOne true).2.2.backedUp)) :=
  snapshot_after_first_plan constMerge 2 gOne (by decide)

/-- A sample from an all-FAIL supernode returns `FAIL` (from the bank below
the last level, from exhaustion past it). -/
theorem sample_of_samplesFail {s : Supernode} (h : samplesFail s) :
    ∃ e, s.sample.1 = .ok (e, SampleSketchRet.FAIL) := by
  unfold Supernode.sample
  by_cases hex : s.numSketches ≤ s.idx
  · exact ⟨(0, 0), by simp [hex]⟩
  · obtain ⟨e, he⟩ := h s.idx (Nat.lt_of_not_le hex)
    exact ⟨e, by simp [hex, he]⟩

/-- Sampling a representative list of all-FAIL supernodes raises nothing,
keeps every bank, and records `FAIL` for every representative. -/
theorem sample_fail_fold {sns : Nat → Supernode} :
    ∀ (l : List Nat)
      (acc : Option GraphError × (Nat → QueryRes) × (Nat → Supernode)),
    (∀ i, i ∈ l → samplesFail (sns i)) →
    acc.1 = none →
    (∀ j, (acc.2.2 j).numSketches = (sns j).numSketches ∧
          (acc.2.2 j).bank = (sns j).bank) →
    (l.foldl sampleStep acc).1 = none ∧
    (∀ j, ((l.foldl sampleStep acc).2.2 j).numSketches = (sns j).numSketches ∧
          ((l.foldl sampleStep acc).2.2 j).bank = (sns j).bank) ∧
    (∀ i, (acc.2.1 i).2 = SampleSketchRet.FAIL →
      ((l.foldl sampleStep acc).2.1 i).2 = SampleSketchRet.FAIL) ∧
    (∀ i, i ∈ l → ((l.foldl sampleStep acc).2.1 i).2 = SampleSketchRet.FAIL) := by
  intro l
  induction l with
  | nil =>
    intro acc hf h1 h2
    exact ⟨h1, h2, fun i h => h, fun i hi => absurd hi (List.not_mem_nil i)⟩
  | cons i rest ih =>
    intro acc hf h1 h2
    have hfi : samplesFail (acc.2.2 i) := by
      intro k hk
      rw [(h2 i).2]
      rw [(h2 i).1] at hk
      exact hf i (List.mem_cons_self i rest) k hk
    obtain ⟨e, he⟩ := sample_of_samplesFail hfi
    have hstep : sampleStep acc i =
        (acc.1, upd acc.2.1 i (e, SampleSketchRet.FAIL),
         upd acc.2.2 i ((acc.2.2 i).sample).2) := by
      simp only [sampleStep, he]
    simp only [List.foldl_cons, hstep]
    have h1' : (acc.1, upd acc.2.1 i (e, SampleSketchRet.FAIL),
        upd acc.2.2 i ((acc.2.2 i).sample).2).1 = none := h1
    have h2' : ∀ j, ((acc.1, upd acc.2.1 i (e, SampleSketchRet.FAIL),
        upd acc.2.2 i ((acc.2.2 i).sample).2).2.2 j).numSketches =
          (sns j).numSketches ∧
        ((acc.1, upd acc.2.1 i (e, SampleSketchRet.FAIL),
        upd acc.2.2 i ((acc.2.2 i).sample).2).2.2 j).bank = (sns j).bank := by
      intro j
      dsimp only
      by_cases hj : j = i
      · subst hj
        rw [upd_self]
        exact ⟨(h2 j).1, (h2 j).2⟩
      · rw [upd_ne _ _ hj]
        exact h2 j
    obtain ⟨f1, f2, f3, f4⟩ := ih _ (fun j hj => hf j (List.mem_cons_of_mem _ hj)) h1' h2'
    refine ⟨f1, f2, ?_, ?_⟩
    · intro i0 h0
      apply f3
      dsimp only
      by_cases hj : i0 = i
      · subst hj; rw [upd_self]
      · rw [upd_ne _ _ hj]; exact h0
    · intro i0 h0
      rcases List.mem_cons.mp h0 with rfl | h0r
      · apply f3
        dsimp only
        rw [upd_self]
      · exact f4 i0 h0r

/-- The planning fold over an all-FAIL query queues every representative
for retry and otherwise changes nothing. -/
theorem plan_fail_fold {n : Nat} {q : Nat → QueryRes} :
    ∀ (l : List Nat) (st : PlanState),
    (∀ i, i ∈ l → (q i).2 = SampleSketchRet.FAIL) →
    l.foldl (planStep n q) st =
      ⟨st.parent, st.size, st.toMerge, st.newReps ++ l,
       if l.isEmpty then st.modified else true⟩ := by
  intro l
  induction l with
  | nil =>
    intro st h
    rcases st with ⟨p, sz, tm, nr, m⟩
    simp
  | cons i rest ih =>
    intro st h
    have hF := h i (List.mem_cons_self i rest)
    have hstep : planStep n q st i =
        { st with modified := true, newReps := st.newReps ++ [i] } := by
      simp only [planStep, hF]
    simp only [List.foldl_cons, hstep]
    rw [ih _ (fun j hj => h j (List.mem_cons_of_mem _ hj))]
    simp

/-- Merging with empty merge lists leaves every supernode cell unchanged. -/
theorem merge_empty_pointwise {mergeFn : Supernode → Supernode → Supernode}
    {cim mc : Bool} :
    ∀ (l : List Nat) (acc : (Nat → Option Supernode) × (Nat → Supernode)) (j : Nat),
    ((l.foldl (mergeStep mergeFn cim mc (fun _ => [])) acc).2 j) = acc.2 j := by
  intro l
  induction l with
  | nil => intro acc j; rfl
  | cons a rest ih =>
    intro acc j
    simp only [List.foldl_cons]
    rw [ih]
    unfold mergeStep
    dsimp only
    by_cases hj : j = a
    · subst hj
      rw [upd_self]
      rfl
    · rw [upd_ne _ _ hj]

/-- An all-FAIL round completes without error, keeps the representative
list, sets `modified` exactly when the list is nonempty, and leaves every
supernode's bank (and so its future sampling behavior) unchanged. -/
theorem fail_round_spec {mergeFn : Supernode → Supernode → Supernode}
    {n : Nat} {mc cim : Bool} {bs : BoruvkaState}
    (hf : ∀ i, i ∈ bs.reps → samplesFail (bs.sns i)) :
    (boruvkaRound mergeFn n mc cim bs).1 = none ∧
    (boruvkaRound mergeFn n mc cim bs).2.reps = bs.reps ∧
    (boruvkaRound mergeFn n mc cim bs).2.modified = !bs.reps.isEmpty ∧
    (∀ j, ((boruvkaRound mergeFn n mc cim bs).2.sns j).numSketches =
        (bs.sns j).numSketches ∧
      ((boruvkaRound mergeFn n mc cim bs).2.sns j).bank = (bs.sns j).bank) := by
  obtain ⟨s1, s2, s3, s4⟩ := sample_fail_fold bs.reps
    (none, fun _ => ((0, 0), SampleSketchRet.ZERO), bs.sns) hf rfl (fun j => ⟨rfl, rfl⟩)
  have s4' : ∀ i, i ∈ bs.reps →
      ((sample_supernodes bs.sns bs.reps).2.1 i).2 = SampleSketchRet.FAIL := s4
  have s2' : ∀ j, ((sample_supernodes bs.sns bs.reps).2.2 j).numSketches =
      (bs.sns j).numSketches ∧
      ((sample_supernodes bs.sns bs.reps).2.2 j).bank = (bs.sns j).bank := s2
  have hplan : supernodes_to_merge n (sample_supernodes bs.sns bs.reps).2.1
      bs.reps bs.parent bs.size =
      ⟨bs.parent, bs.size, fun _ => [], bs.reps, !bs.reps.isEmpty⟩ := by
    simp only [supernodes_to_merge]
    rw [plan_fail_fold bs.reps _ s4']
    rcases hrep : bs.reps with _ | ⟨r, rest⟩ <;> simp
  unfold boruvkaRound
  simp only [show (sample_supernodes bs.sns bs.reps).1 = none from s1, hplan]
  refine ⟨?_, ?_, ?_, ?_⟩
  · trivial
  · trivial
  · trivial
  · intro j
    show ((merge_supernodes mergeFn cim bs.copySns (sample_supernodes bs.sns bs.reps).2.2
        bs.reps (fun _ => []) (bs.firstRound && mc)).2 j).numSketches = _ ∧ _
    unfold merge_supernodes
    rw [merge_empty_pointwise]
    exact s2' j

/-- With every representative permanently FAILing, the do-while loop never
reaches a round with `modified == false`: every amount of fuel runs out. -/
theorem fail_loop_out {mergeFn : Supernode → Supernode → Supernode}
    {n : Nat} {mc cim : Bool} :
    ∀ (fuel : Nat) (bs : BoruvkaState),
    (∀ i, i ∈ bs.reps → samplesFail (bs.sns i)) → bs.reps ≠ [] →
    (boruvkaLoop mergeFn n mc cim fuel bs).isOut = true := by
  intro fuel
  induction fuel with
  | zero => intro bs h1 h2; rfl
  | succ f ih =>
    intro bs h1 h2
    obtain ⟨e1, e2, e3, e4⟩ := @fail_round_spec mergeFn n mc cim bs h1
    rw [boruvkaLoop_succ]
    rcases hr : boruvkaRound mergeFn n mc cim bs with ⟨oe, bs1⟩
    rw [hr] at e1 e2 e3 e4
    dsimp only at e1 e2 e3 e4 ⊢
    subst e1
    have hmod : bs1.modified = true := by
      rw [e3]
      rcases hrep : bs.reps with _ | ⟨r, rest⟩
      · exact absurd hrep h2
      · simp
    show (if bs1.modified = true then boruvkaLoop mergeFn n mc cim f bs1
      else LoopRes.finished bs1).isOut = true
    rw [if_pos hmod]
    apply ih bs1
    · intro i hi
      rw [e2] at hi
      intro k hk
      rw [(e4 i).2]
      rw [(e4 i).1] at hk
      exact h1 i hi k hk
    · rw [e2]; exact h2

/-- C7 counterexample: the Borůvka driver loop does not terminate for every
input — with a single exhausted supernode (no sketch levels, so `sample()`
returns `FAIL` forever per the §3 invariant) as the only representative,
the supernode is retried instead of dropping out, `modified` is set every
round, and no amount of fuel makes the do-while loop exit. -/
theorem exhausted_supernode_loop_counterexample :
    ¬ loopExits constMerge 1 false false bsExh := by
  rintro ⟨fuel, hf⟩
  have hout := @fail_loop_out constMerge 1 false false fuel bsExh
    (fun i hi k hk => absurd hk (Nat.not_lt_zero k))
    (by decide)
  rw [hout] at hf
  cases hf

/-- C7 amended: each round either merges components or retries FAILing
supernodes, but a FAILing supernode stays in the representative set rather
than dropping out: a round in which every representative's sample returns
`FAIL` completes without error, keeps the representative list unchanged,
sets `modified` exactly when the list is nonempty, and leaves every bank
unchanged — so an exhausted supernode (whose sample stays `FAIL`) keeps the
loop alive forever, and the loop terminates only when a round produces no
merges and no FAILs (or an exception aborts the query). -/
theorem fail_retry_keeps_loop_alive
    (mergeFn : Supernode → Supernode → Supernode) (n : Nat) (mc cim : Bool)
    (bs : BoruvkaState)
    (hf : ∀ i, i ∈ bs.reps → samplesFail (bs.sns i)) :
    (boruvkaRound mergeFn n mc cim bs).1 = none ∧
    (boruvkaRound mergeFn n mc cim bs).2.reps = bs.reps ∧
    (boruvkaRound mergeFn n mc cim bs).2.modified = (!bs.reps.isEmpty) ∧
    (∀ j, ((boruvkaRound mergeFn n mc cim bs).2.sns j).numSketches =
        (bs.sns j).numSketches ∧
      ((boruvkaRound mergeFn n mc cim bs).2.sns j).bank = (bs.sns j).bank) :=
  fail_round_spec hf

/-- Witness for the amended C7 at the exhausted one-vertex loop state. -/
theorem fail_retry_keeps_loop_alive_witness :
    (boruvkaRound constMerge 1 false false bsExh).1 = none ∧
    (boruvkaRound constMerge 1 false false bsExh).2.reps = bsExh.reps ∧
    (boruvkaRound constMerge 1 false false bsExh).2.modified =
      (!bsExh.reps.isEmpty) ∧
    (∀ j, ((boruvkaRound constMerge 1 false false bsExh).2.sns j).numSketches =
        (bsExh.sns j).numSketches ∧
      ((boruvkaRound constMerge 1 false false bsExh).2.sns j).bank =
        (bsExh.sns j).bank) :=
  fail_retry_keeps_loop_alive constMerge 1 false false bsExh
    (fun i hi k hk => absurd hk (Nat.not_lt_zero k))

/-- Deserializing a serialized supernode record reproduces the supernode
when its cursor is at 0 (the cursor is not part of the record). -/
theorem makeSupernode_write_binary {s : Supernode} (h : s.idx = 0) :
    Supernode.makeSupernode s.write_binary = s := by
  rcases s with ⟨idx, K, b⟩
  simp only at h
  subst h
  rfl

/-- C8 counterexample: round-trip through serialization does not preserve
the answer for every graph state.  On the two-vertex state `gDirty` whose
DSU is dirty (`parent = [0, 0]`, as an in-place query leaves behind) and
whose sketches report `ZERO`, the original engine returns the single
component `{0, 1}` (the stale parent link groups them), while an engine
constructed from `write_binary`'s file — which serializes neither the DSU
nor the cursors — returns `{0}, {1}`; the partitions differ set-wise. -/
theorem write_read_roundtrip_counterexample :
    (connected_components constMerge 3 gDirty false).1 = .done [[0, 1]] ∧
    (connected_components constMerge 3
      (Graph.load (write_binary gDirty).1 gDirty.copyInMem) false).1 =
      .done [[0], [1]] ∧
    ¬ partitionSetEq [[0, 1]] [[0], [1]] := by
  refine ⟨by decide, by decide, by decide⟩

/-- C8 amended: for every engine state that has only been constructed and
ingested (identity DSU, all query cursors at 0, sizes 1, ingest unlocked,
workers running, no stale backup file, default cells beyond the vertex
count — exactly the shape `write_binary` is used in by the reheating test),
constructing a new engine from the file produced by `write_binary` — which
writes the seed, the vertex count, the sketch failure factor, and the
supernodes in vertex-id order — reproduces the engine state exactly, and
hence `connected_components` returns the same partition (in particular
set-wise equal). -/
theorem write_read_roundtrip (g : Graph)
    (Hp : g.parent = fun i => i)
    (Hsz : g.size = fun _ => 1)
    (Hidx : ∀ i, (g.supernodes i).idx = 0)
    (Hcanon : ∀ i, g.numNodes ≤ i →
      g.supernodes i = Supernode.makeSupernode defaultRecord)
    (Hlock : g.updateLocked = false)
    (Hwp : g.workersPaused = false)
    (Hbf : g.backupFile = []) :
    Graph.load (write_binary g).1 g.copyInMem = g ∧
    ∀ mergeFn fuel cont,
      (connected_components mergeFn fuel
        (Graph.load (write_binary g).1 g.copyInMem) cont).1 =
      (connected_components mergeFn fuel g cont).1 := by
  have hload : Graph.load (write_binary g).1 g.copyInMem = g := by
    have hsns : (fun i => Supernode.makeSupernode
        (((List.range g.numNodes).map (fun j => (g.supernodes j).write_binary)).getD
          i defaultRecord)) = g.supernodes := by
      funext i
      by_cases hi : i < g.numNodes
      · have hget : ((List.range g.numNodes).map
            (fun j => (g.supernodes j).write_binary)).getD i defaultRecord =
            (g.supernodes i).write_binary := by
          rw [List.getD_eq_getElem?_getD, List.getElem?_map]
          simp [List.getElem?_range hi]
        rw [hget]
        exact makeSupernode_write_binary (Hidx i)
      · have hlen : ((List.range g.numNodes).map
            (fun j => (g.supernodes j).write_binary)).length ≤ i := by
          rw [List.length_map, List.length_range]
          exact Nat.le_of_not_lt hi
        rw [List.getD_eq_getElem?_getD]
        simp only [List.getElem?_eq_none hlen, Option.getD_none]
        exact (Hcanon i (Nat.le_of_not_lt hi)).symm
    rcases g with ⟨n, seed, ff, sns, p, sz, ul, wp, cim, bf⟩
    simp only at Hp Hsz Hlock Hwp Hbf hsns
    simp only [Graph.load, write_binary, Graph.mk.injEq]
    exact ⟨trivial, trivial, trivial, hsns, Hp.symm, Hsz.symm, Hlock.symm,
      Hwp.symm, trivial, Hbf.symm⟩
  exact ⟨hload, fun mergeFn fuel cont => by rw [hload]⟩

/-- Witness for the amended C8 at the canonical two-vertex state `gCanon`. -/
theorem write_read_roundtrip_witness :
    (Graph.load (write_binary gCanon).1 gCanon.copyInMem = gCanon ∧
    ∀ mergeFn fuel cont,
      (connected_components mergeFn fuel
        (Graph.load (write_binary gCanon).1 gCanon.copyInMem) cont).1 =
      (connected_components mergeFn fuel gCanon cont).1) ∧
    (connected_components constMerge 3 gCanon false).1 = .done [[0], [1]] := by
  refine ⟨write_read_roundtrip gCanon rfl rfl ?_ ?_ rfl rfl rfl, by decide⟩
  · intro i
    by_cases hi : i < 2
    · simp [gCanon, hi, zeroSN]
    · simp [gCanon, hi, Supernode.makeSupernode, defaultRecord]
  · intro i hi
    have hni : ¬ i < 2 := Nat.not_lt.mpr hi
    simp [gCanon, hni]

end StreamingCC
